import Mathlib

/-!
Verification of the ember XCS core specification: operators as named-input /
named-output mappings, trace recording of operator invocations, compilation of
traces into dependency DAGs, a compile-once signature cache, sequential and
parallel graph schedulers, a scoped execution-options stack, and the
configuration manager's `get` accessor.
-/

/-- A name labelling an input or output of an operator invocation. -/
abbrev Name := String

/-- Values flowing between operators; the core treats them as opaque tokens. -/
abbrev Value := Int

/-- A mapping of named inputs or outputs, as an association list. -/
abbrev ValMap := List (Name × Value)

/-- Look up a name in a value mapping (first match wins). -/
def lookupVal (n : Name) : ValMap → Option Value
  | [] => none
  | (k, v) :: rest => if n = k then some v else lookupVal n rest

/-- Positional lookup in a list, returning `none` when out of range. -/
def nth {α : Type} : List α → Nat → Option α
  | [], _ => none
  | a :: _, 0 => some a
  | _ :: l, n + 1 => nth l n

/-- Look up a node's stored output mapping by its sequence index. -/
def assocFind (j : Nat) : List (Nat × ValMap) → Option ValMap
  | [] => none
  | (k, m) :: rest => if j = k then some m else assocFind j rest

theorem nth_isSome_iff {α : Type} : ∀ (l : List α) (n : Nat),
    (nth l n).isSome ↔ n < l.length := by
  intro l
  induction l with
  | nil => intro n; simp [nth]
  | cons a l ih =>
    intro n
    cases n with
    | zero => simp [nth]
    | succ n => simp [nth, ih n, Nat.succ_lt_succ_iff]

theorem nth_eq_none_of_le {α : Type} : ∀ (l : List α) (n : Nat),
    l.length ≤ n → nth l n = none := by
  intro l n h
  cases hs : nth l n with
  | none => rfl
  | some a =>
    have : (nth l n).isSome := by rw [hs]; rfl
    rw [nth_isSome_iff] at this
    omega

theorem nth_append_left {α : Type} : ∀ (l₁ l₂ : List α) (n : Nat),
    n < l₁.length → nth (l₁ ++ l₂) n = nth l₁ n := by
  intro l₁
  induction l₁ with
  | nil => intro l₂ n h; simp at h
  | cons a l ih =>
    intro l₂ n h
    cases n with
    | zero => rfl
    | succ n =>
      simp only [List.cons_append, nth]
      exact ih l₂ n (by simpa [Nat.succ_lt_succ_iff] using h)

theorem nth_append_length {α : Type} : ∀ (l₁ l₂ : List α) (a : α),
    nth (l₁ ++ a :: l₂) l₁.length = some a := by
  intro l₁
  induction l₁ with
  | nil => intro l₂ a; rfl
  | cons b l ih => intro l₂ a; simpa [nth] using ih l₂ a

theorem nth_mem {α : Type} : ∀ (l : List α) (n : Nat) (a : α),
    nth l n = some a → a ∈ l := by
  intro l
  induction l with
  | nil => intro n a h; simp [nth] at h
  | cons b l ih =>
    intro n a h
    cases n with
    | zero => simp [nth] at h; simp [h]
    | succ n => exact List.mem_cons_of_mem b (ih n a h)

theorem mem_nth {α : Type} : ∀ (l : List α) (a : α),
    a ∈ l → ∃ n, nth l n = some a := by
  intro l
  induction l with
  | nil => intro a h; simp at h
  | cons b l ih =>
    intro a h
    rcases List.mem_cons.mp h with h | h
    · exact ⟨0, by simp [nth, h]⟩
    · rcases ih a h with ⟨n, hn⟩
      exact ⟨n + 1, hn⟩

theorem assocFind_append (j : Nat) : ∀ (l₁ l₂ : List (Nat × ValMap)),
    assocFind j (l₁ ++ l₂) =
      (match assocFind j l₁ with
       | some m => some m
       | none => assocFind j l₂) := by
  intro l₁
  induction l₁ with
  | nil => intro l₂; rfl
  | cons p l ih =>
    intro l₂
    by_cases h : j = p.1
    · simp [assocFind, h]
    · simp [assocFind, h, ih]

theorem lookupVal_mem (n : Name) : ∀ (m : ValMap) (v : Value),
    lookupVal n m = some v → (n, v) ∈ m := by
  intro m
  induction m with
  | nil => intro v h; simp [lookupVal] at h
  | cons p rest ih =>
    intro v h
    by_cases hn : n = p.1
    · simp [lookupVal, hn] at h
      simp [hn, ← h]
    · simp [lookupVal, hn] at h
      exact List.mem_cons_of_mem p (ih v h)

/-- Modelled from the spec: the error taxonomy of §7 (the XCS core under
`ember.xcs` is absent from the sources; only its tests and callers are
present). `aggregated` carries the failures observed by the parallel
scheduler as (sequence index, operator identity) pairs. -/
inductive EmberError where
  | tracingState
  | graphConstruction
  | configuration
  | missingInput (seq : Nat)
  | operatorFailure (seq : Nat) (opId : Nat)
  | aggregated (failures : List (Nat × Nat))
  | missingResult
deriving DecidableEq, Repr

/-- Modelled from the spec: where a traced operator call obtains one named
input — either a graph-boundary input or a named output of an earlier step
(§9's explicit provenance of value handles). -/
inductive Src where
  | boundary (b : Name)
  | fromStep (j : Nat) (out : Name)
deriving DecidableEq, Repr

/-- Modelled from the spec: the unique value-handle assigned at the moment a
value is produced (§9): boundary values keep their boundary name, produced
values are identified by producing step and output name. -/
inductive Handle where
  | boundary (b : Name)
  | produced (j : Nat) (out : Name)
deriving DecidableEq, Repr

/-- The handle that a traced boundary sees for a value drawn from `Src`. -/
def handleOfSrc : Src → Handle
  | .boundary b => .boundary b
  | .fromStep j m => .produced j m

/-- The output/input name carried by a handle, used as an edge label. -/
def handleName : Handle → Name
  | .boundary b => b
  | .produced _ m => m

/-- Modelled from the spec: one operator invocation inside a pipeline's
`forward`: which operator is called and where each named input comes from. -/
structure Call where
  opId : Nat
  argSrcs : List (Name × Src)
deriving DecidableEq, Repr

/-- Modelled from the spec: an operator pipeline as the ordered sequence of
operator invocations its `forward` performs; the last call's output is the
pipeline's result (§4.2: the root invocation's final output). -/
structure Pipeline where
  calls : List Call
deriving DecidableEq, Repr

/-- Modelled from the spec: the operator boundary of §6 — an opaque callable
from a named-input mapping to a named-output mapping that may signal an
`OperatorFailure`, indexed by operator identity. -/
def OpEnv := Nat → ValMap → Except Unit ValMap

/-- Resolve one input source against the boundary inputs and the outputs of
the steps executed so far. -/
def resolveSrc (x : ValMap) (outs : List ValMap) : Src → Option Value
  | .boundary b => lookupVal b x
  | .fromStep j m =>
    match nth outs j with
    | some om => lookupVal m om
    | none => none

/-- Resolve all named inputs of one call. -/
def resolveArgs (x : ValMap) (outs : List ValMap) : List (Name × Src) → Option ValMap
  | [] => some []
  | a :: rest =>
    match resolveSrc x outs a.2 with
    | none => none
    | some v =>
      match resolveArgs x outs rest with
      | none => none
      | some m => some ((a.1, v) :: m)

/-- Modelled from the spec: direct, untraced execution of the pipeline's
calls in order, accumulating each step's output mapping. -/
def runSteps (env : OpEnv) (x : ValMap) : List Call → List ValMap →
    Except EmberError (List ValMap)
  | [], outs => .ok outs
  | c :: cs, outs =>
    match resolveArgs x outs c.argSrcs with
    | none => .error (.missingInput outs.length)
    | some args =>
      match env c.opId args with
      | .error _ => .error (.operatorFailure outs.length c.opId)
      | .ok out => runSteps env x cs (outs ++ [out])

/-- Modelled from the spec: a direct, untraced call of the original operator
pipeline on boundary inputs `x`; the result is the last step's output. -/
def runDirect (env : OpEnv) (p : Pipeline) (x : ValMap) : Except EmberError ValMap :=
  match runSteps env x p.calls [] with
  | .error e => .error e
  | .ok outs =>
    match outs.getLast? with
    | some m => .ok m
    | none => .error .missingResult

/-- Modelled from the spec: one `InvocationRecord` of §3 — sequence index,
operator identity, input snapshot and output snapshot as value handles. -/
structure InvocationRecord where
  seq : Nat
  opId : Nat
  inputs : List (Name × Handle)
  outputs : List (Name × Handle)
deriving DecidableEq, Repr

/-- The record the Trace Recorder appends for a call at sequence index `seq`
whose concrete output mapping was `out`. -/
def mkRecord (seq : Nat) (c : Call) (out : ValMap) : InvocationRecord :=
  { seq := seq
    opId := c.opId
    inputs := c.argSrcs.map (fun a => (a.1, handleOfSrc a.2))
    outputs := out.map (fun q => (q.1, Handle.produced seq q.1)) }

/-- Modelled from the spec: the single probe execution of §4.1 — run the
pipeline once under the Trace Recorder, appending one `InvocationRecord` per
operator invocation with strictly increasing sequence index, and also return
the concrete outputs of every step. -/
def probeSteps (env : OpEnv) (x : ValMap) : List Call → List ValMap →
    Except EmberError (List InvocationRecord × List ValMap)
  | [], outs => .ok ([], outs)
  | c :: cs, outs =>
    match resolveArgs x outs c.argSrcs with
    | none => .error (.missingInput outs.length)
    | some args =>
      match env c.opId args with
      | .error _ => .error (.operatorFailure outs.length c.opId)
      | .ok out =>
        match probeSteps env x cs (outs ++ [out]) with
        | .error e => .error e
        | .ok (recs, fouts) => .ok (mkRecord outs.length c out :: recs, fouts)

/-- Modelled from the spec: the Trace Recorder's per-context state (§4.1) —
at most one active probe, holding the records appended so far. -/
structure RecorderState where
  active : Option (List InvocationRecord)
deriving DecidableEq, Repr

/-- Modelled from the spec: `begin_probe()` opens a new trace, or rejects a
nested probe with `TracingStateError`, leaving the recorder untouched. -/
def begin_probe (s : RecorderState) : RecorderState × Option EmberError :=
  match s.active with
  | some _ => (s, some .tracingState)
  | none => ({ active := some [] }, none)

/-- Modelled from the spec: `end_probe()` seals and returns the active
trace; the recorder becomes inactive. -/
def end_probe (s : RecorderState) : RecorderState × Option (List InvocationRecord) :=
  match s.active with
  | some t => ({ active := none }, some t)
  | none => (s, none)

/-- Modelled from the spec: a compiled-graph node (§3) — operator identity,
sequence index, input snapshot (names with their value handles) and the
output names it produces. -/
structure Node where
  seq : Nat
  opId : Nat
  inputs : List (Name × Handle)
  outputNames : List Name
deriving DecidableEq, Repr

/-- Modelled from the spec: a directed edge from producer node to consumer
node, labeled with the output/input name pair creating the dependency. -/
structure Edge where
  producer : Nat
  consumer : Nat
  outName : Name
  inName : Name
deriving DecidableEq, Repr

/-- Modelled from the spec: an immutable compiled graph — nodes, edges and
the designated result node (§3). -/
structure CompiledGraph where
  nodes : List Node
  edges : List Edge
  resultSeq : Nat
deriving DecidableEq, Repr

/-- Whether `h` appears among the output handles of a record's snapshot. -/
def producesHandle (h : Handle) : List (Name × Handle) → Bool
  | [] => false
  | q :: qs => decide (q.2 = h) || producesHandle h qs

/-- Modelled from the spec: the provenance index of §4.2, mapping an output
value handle to the node that produced it; on ambiguity the most recent
producer by sequence index wins (the records are in sequence order). -/
def provLookup : List InvocationRecord → Handle → Option Nat
  | [], _ => none
  | r :: rs, h =>
    match provLookup rs h with
    | some p => some p
    | none => if producesHandle h r.outputs then some r.seq else none

/-- The node created for one invocation record. -/
def nodeOfRecord (r : InvocationRecord) : Node :=
  { seq := r.seq
    opId := r.opId
    inputs := r.inputs
    outputNames := r.outputs.map Prod.fst }

/-- Modelled from the spec: the edges contributed by one record — each input
handle found in the provenance index yields a directed edge from its
producer to this record's node; handles not found are boundary inputs. -/
def edgesOfRecord (recs : List InvocationRecord) (r : InvocationRecord) : List Edge :=
  r.inputs.filterMap (fun q =>
    match provLookup recs q.2 with
    | some p => some { producer := p, consumer := r.seq,
                       outName := handleName q.2, inName := q.1 }
    | none => none)

/-- Modelled from the spec: the Graph Builder of §4.2 — one node per record,
edges by provenance resolution, result node the last record; an empty trace
is a `GraphConstructionError`. -/
def buildGraph (recs : List InvocationRecord) : Except EmberError CompiledGraph :=
  match recs with
  | [] => .error .graphConstruction
  | _ :: _ =>
    .ok { nodes := recs.map nodeOfRecord
          edges := recs.flatMap (edgesOfRecord recs)
          resultSeq := recs.length - 1 }

/-- Resolve a value handle at node-execution time: boundary handles read the
boundary inputs, produced handles read the stored output of their producer. -/
def resolveHandle (x : ValMap) (done : List (Nat × ValMap)) : Handle → Option Value
  | .boundary b => lookupVal b x
  | .produced j m =>
    match assocFind j done with
    | some om => lookupVal m om
    | none => none

/-- Resolve all inputs of a node against boundary inputs and completed
node outputs. -/
def resolveNodeInputs (x : ValMap) (done : List (Nat × ValMap)) :
    List (Name × Handle) → Option ValMap
  | [] => some []
  | q :: qs =>
    match resolveHandle x done q.2 with
    | none => none
    | some v =>
      match resolveNodeInputs x done qs with
      | none => none
      | some m => some ((q.1, v) :: m)

/-- Modelled from the spec: the sequential policy of §4.4 — nodes execute
strictly in trace sequence order, one at a time; a failed node aborts the
remaining execution immediately with that single failure. -/
def seqRunGo (env : OpEnv) (x : ValMap) : List Node → List (Nat × ValMap) →
    Except EmberError (List (Nat × ValMap))
  | [], done => .ok done
  | nd :: nds, done =>
    match resolveNodeInputs x done nd.inputs with
    | none => .error (.missingInput nd.seq)
    | some args =>
      match env nd.opId args with
      | .error _ => .error (.operatorFailure nd.seq nd.opId)
      | .ok out => seqRunGo env x nds (done ++ [(nd.seq, out)])

/-- Modelled from the spec: `run(graph, boundary_inputs)` under the
sequential policy; the result is the designated result node's output. -/
def seqRun (env : OpEnv) (g : CompiledGraph) (x : ValMap) : Except EmberError ValMap :=
  match seqRunGo env x g.nodes [] with
  | .error e => .error e
  | .ok done =>
    match assocFind g.resultSeq done with
    | some m => .ok m
    | none => .error .missingResult

/-- The predecessors of the node with sequence index `s`: producers of the
edges consumed by `s`. -/
def nodePreds (g : CompiledGraph) (s : Nat) : List Nat :=
  g.edges.filterMap (fun e => if e.consumer = s then some e.producer else none)

/-- A node is ready when the output of every predecessor is available. -/
def isReady (g : CompiledGraph) (done : List (Nat × ValMap)) (nd : Node) : Bool :=
  (nodePreds g nd.seq).all (fun j => (assocFind j done).isSome)

/-- Modelled from the spec: the scheduler's dispatch state for a parallel
run — completed node outputs, the dispatch log, and observed failures. -/
structure ParAcc where
  done : List (Nat × ValMap)
  dispatched : List Nat
  failures : List (Nat × Nat)
deriving Repr

/-- The nodes that are ready and not yet dispatched. -/
def readyNodes (g : CompiledGraph) (acc : ParAcc) : List Node :=
  g.nodes.filter (fun nd => decide (¬ nd.seq ∈ acc.dispatched) && isReady g acc.done nd)

/-- Modelled from the spec: one dispatch wave of §4.4's parallel policy —
every ready node executes against the outputs available when the wave
started; each node either completes `done` or is recorded as `failed`. -/
def runWave (env : OpEnv) (x : ValMap) (done : List (Nat × ValMap)) :
    List Node → List (Nat × ValMap) × List (Nat × Nat)
  | [] => ([], [])
  | nd :: nds =>
    let rest := runWave env x done nds
    match resolveNodeInputs x done nd.inputs with
    | none => (rest.1, (nd.seq, nd.opId) :: rest.2)
    | some args =>
      match env nd.opId args with
      | .ok out => ((nd.seq, out) :: rest.1, rest.2)
      | .error _ => (rest.1, (nd.seq, nd.opId) :: rest.2)

/-- Insert a failure into a list kept sorted by sequence index. -/
def insertFail (q : Nat × Nat) : List (Nat × Nat) → List (Nat × Nat)
  | [] => [q]
  | p :: ps => if q.1 ≤ p.1 then q :: p :: ps else p :: insertFail q ps

/-- Sort observed failures by sequence index, so the first failure by
sequence index heads the aggregate. -/
def sortFails : List (Nat × Nat) → List (Nat × Nat)
  | [] => []
  | q :: qs => insertFail q (sortFails qs)

/-- Modelled from the spec: the dispatch loop of §4.4's parallel policy —
on any observed failure it stops dispatching new nodes, lets the wave that
was already running finish, and returns an `AggregatedFailure`; otherwise it
dispatches every ready node, and when nothing remains ready it returns the
designated result node's output. -/
def parGo (env : OpEnv) (g : CompiledGraph) (x : ValMap) :
    Nat → ParAcc → Except EmberError ValMap × ParAcc
  | 0, acc => (.error .missingResult, acc)
  | fuel + 1, acc =>
    match acc.failures with
    | q :: qs => (.error (.aggregated (sortFails (q :: qs))), acc)
    | [] =>
      match readyNodes g acc with
      | [] =>
        match assocFind g.resultSeq acc.done with
        | some m => (.ok m, acc)
        | none => (.error .missingResult, acc)
      | nd :: nds =>
        let wave := runWave env x acc.done (nd :: nds)
        parGo env g x fuel
          { done := acc.done ++ wave.1
            dispatched := acc.dispatched ++ (nd :: nds).map Node.seq
            failures := acc.failures ++ wave.2 }

/-- Modelled from the spec: `run(graph, boundary_inputs)` under the parallel
policy, returning the result together with the final dispatch state. -/
def parRun (env : OpEnv) (g : CompiledGraph) (x : ValMap) :
    Except EmberError ValMap × ParAcc :=
  parGo env g x (g.nodes.length + 1) { done := [], dispatched := [], failures := [] }

/-- Modelled from the spec: `ExecutionOptions` of §3 — scheduler policy name
and the concurrency bound for the parallel policy. -/
structure ExecutionOptions where
  scheduler : String
  maxConcurrency : Nat
deriving DecidableEq, Repr

/-- The scheduler policy names accepted by the scheduling directive (§6). -/
def validScheduler (s : String) : Bool :=
  decide (s = "sequential") || decide (s = "parallel")

/-- Modelled from the spec: the process-wide default options present at
startup (§3); the default policy is sequential. -/
def defaultOptions : ExecutionOptions :=
  { scheduler := "sequential", maxConcurrency := 4 }

/-- Modelled from the spec: the top of the scope-local options stack is the
effective value; the process-wide default applies when the stack is empty. -/
def currentOptions (stk : List ExecutionOptions) : ExecutionOptions :=
  stk.headD defaultOptions

/-- Modelled from the spec: `with_execution_options` (§4.5/§6) — validate at
entry (invalid scheduler is a `ConfigurationError` raised before any node
executes), push the options for the dynamic extent of `body`, and restore
the previous stack on every exit path, normal or failing. -/
def with_execution_options {α : Type} (opts : ExecutionOptions)
    (stk : List ExecutionOptions) (body : List ExecutionOptions → Except EmberError α) :
    Except EmberError α × List ExecutionOptions :=
  if validScheduler opts.scheduler then
    (body (opts :: stk), (opts :: stk).tail)
  else
    (.error .configuration, stk)

/-- Modelled from the spec: dispatch a compiled graph to the scheduler
selected by the effective options (§4.4). -/
def schedule (env : OpEnv) (g : CompiledGraph) (x : ValMap)
    (opts : ExecutionOptions) : Except EmberError ValMap :=
  if opts.scheduler = "parallel" then (parRun env g x).1 else seqRun env g x

/-- Boolean comparison of character lists in lexicographic order. -/
def charListLe : List Char → List Char → Bool
  | [], _ => true
  | _ :: _, [] => false
  | a :: as, b :: bs => if a = b then charListLe as bs else decide (a < b)

/-- Insert a key into a lexicographically sorted key list. -/
def insertKey (s : String) : List String → List String
  | [] => [s]
  | t :: ts => if charListLe s.data t.data then s :: t :: ts else t :: insertKey s ts

/-- Canonicalize an input mapping's key set as a sorted key list. -/
def sortKeys : List String → List String
  | [] => []
  | s :: ss => insertKey s (sortKeys ss)

/-- Modelled from the spec: the structural signature of §3 — operator
identity plus the input mapping's key-set fingerprint. -/
structure Sig where
  opId : Nat
  keys : List String
deriving DecidableEq, Repr

/-- The signature of a call: the wrapped operator's identity plus the
canonicalized key set of the input mapping. -/
def sigOf (pipeId : Nat) (x : ValMap) : Sig :=
  { opId := pipeId, keys := sortKeys (x.map Prod.fst) }

/-- Modelled from the spec: the Compilation Cache state of §4.3 plus the
counter incremented inside the Graph Builder's build path (§8 property 2). -/
structure JitState where
  cache : List (Sig × CompiledGraph)
  buildCount : Nat
deriving Repr

/-- The wrapped operator's state before any call: empty cache, no builds. -/
def jitStateInit : JitState := { cache := [], buildCount := 0 }

/-- Look a signature up in the compilation cache. -/
def cacheFind (sig : Sig) : List (Sig × CompiledGraph) → Option CompiledGraph
  | [] => none
  | (s, g) :: rest => if sig = s then some g else cacheFind sig rest

/-- Modelled from the spec: one call into a JIT-wrapped operator (§2
control flow) — consult the compilation cache; on a miss run the operator
once under the Trace Recorder, build the graph, store it and bump the build
counter; then execute the compiled graph via the Scheduler. -/
def jit_wrap_call (env : OpEnv) (pipeId : Nat) (p : Pipeline)
    (opts : ExecutionOptions) (st : JitState) (x : ValMap) :
    Except EmberError ValMap × JitState :=
  match cacheFind (sigOf pipeId x) st.cache with
  | some g => (schedule env g x opts, st)
  | none =>
    match probeSteps env x p.calls [] with
    | .error e => (.error e, st)
    | .ok (recs, _) =>
      match buildGraph recs with
      | .error e => (.error e, st)
      | .ok g =>
        (schedule env g x opts,
         { cache := (sigOf pipeId x, g) :: st.cache, buildCount := st.buildCount + 1 })

/-- Call a wrapped operator once per input in the given list, threading the
cache state. -/
def jitCallSeq (env : OpEnv) (pipeId : Nat) (p : Pipeline) (opts : ExecutionOptions) :
    List ValMap → JitState → JitState
  | [], st => st
  | x :: xs, st => jitCallSeq env pipeId p opts xs (jit_wrap_call env pipeId p opts st x).2

/-- A Python exception kind that attribute access can signal inside
`ConfigManager.get`: `AttributeError` or `TypeError`, the two kinds the
method's `except` clause catches. -/
inductive PyExn where
  | attributeError
  | typeError
deriving DecidableEq, Repr

/-- The outcome of looking up one attribute on a Python object: the
attribute exists, it is absent, or the object's attribute access itself
raises (e.g. an object that does not support attribute access). -/
inductive AttrLookup (α : Type) where
  | found (a : α)
  | absent
  | raises (e : PyExn)

/-- A configuration value as accessed by `ConfigManager.get`. -/
abbrev ConfigValue := String

/-- A configuration section object: its attribute table for key lookup. -/
structure SectionModel where
  keys : String → AttrLookup ConfigValue

/-- The loaded `EmberConfig` object: its attribute table for section
lookup, embedding `self._config` of `ConfigManager`. -/
structure EmberConfigModel where
  sections : String → AttrLookup SectionModel

/-- Python's `hasattr`: `True`/`False` for present/absent attributes
(`AttributeError` is suppressed), while any other exception propagates. -/
def hasattrM {α : Type} (l : AttrLookup α) : Except PyExn Bool :=
  match l with
  | .found _ => .ok true
  | .absent => .ok false
  | .raises e => .error e

/-- Python's `getattr`: the attribute value, `AttributeError` when absent,
or whatever exception the access raises. -/
def getattrM {α : Type} (l : AttrLookup α) : Except PyExn α :=
  match l with
  | .found a => .ok a
  | .absent => .error .attributeError
  | .raises e => .error e

/-- The `try` body of `ConfigManager.get` (manager.py lines 119-125):
`if hasattr(self._config, section): section_obj = getattr(...); if
hasattr(section_obj, key): return getattr(section_obj, key)`; `some` is an
early return, `none` falls through to the default. -/
def configGetBody (cfg : EmberConfigModel) (s k : String) :
    Except PyExn (Option ConfigValue) :=
  match hasattrM (cfg.sections s) with
  | .error e => .error e
  | .ok false => .ok none
  | .ok true =>
    match getattrM (cfg.sections s) with
    | .error e => .error e
    | .ok so =>
      match hasattrM (so.keys k) with
      | .error e => .error e
      | .ok false => .ok none
      | .ok true =>
        match getattrM (so.keys k) with
        | .error e => .error e
        | .ok v => .ok (some v)

/-- `ConfigManager.get` (manager.py lines 106-127): run the `try` body;
`except (AttributeError, TypeError): pass` drops to `return default`. -/
def configGet (cfg : EmberConfigModel) (s k : String) (d : ConfigValue) :
    Except PyExn ConfigValue :=
  match configGetBody cfg s k with
  | .ok (some v) => .ok v
  | .ok none => .ok d
  | .error .attributeError => .ok d
  | .error .typeError => .ok d

/-- The doubling operator of the concrete scenario (§8 property 7 and
test_xcs_integration.py): `double(x) -> {result: x*2}`. -/
def demoEnv : OpEnv := fun opId args =>
  if opId = 1 then
    match lookupVal "x" args with
    | some v => .ok [("result", v * 2)]
    | none => .error ()
  else .error ()

/-- The pipeline `pipeline(v) = double(double(v))` of the concrete
scenario: the first call doubles the boundary input `value`, the second
doubles the first call's `result`. -/
def doublePipeline : Pipeline :=
  { calls :=
      [ { opId := 1, argSrcs := [("x", .boundary "value")] }
      , { opId := 1, argSrcs := [("x", .fromStep 0 "result")] } ] }

/-- The concrete scenario's input mapping `{value: 5}`. -/
def demoInput : ValMap := [("value", 5)]

/-- The one-step dependency relation of a compiled graph: an edge leads
from producer to consumer. -/
def edgeStep (g : CompiledGraph) (a b : Nat) : Prop :=
  ∃ e, e ∈ g.edges ∧ e.producer = a ∧ e.consumer = b

/-- The records of the probe of the concrete doubling scenario. -/
def demoRecs : List InvocationRecord :=
  ((probeSteps demoEnv demoInput doublePipeline.calls []).toOption.getD ([], [])).1

/-- The step outputs of the probe of the concrete doubling scenario. -/
def demoOuts : List ValMap :=
  ((probeSteps demoEnv demoInput doublePipeline.calls []).toOption.getD ([], [])).2

/-- The compiled graph of the concrete doubling scenario. -/
def demoGraph : CompiledGraph :=
  (buildGraph demoRecs).toOption.getD { nodes := [], edges := [], resultSeq := 0 }

/-- A second input with the same key set as `demoInput` but another value. -/
def demoInput2 : ValMap := [("value", 7)]

/-- A three-node graph for exercising the parallel scheduler's fail-fast
path: node 0 and node 1 are independent, node 2 consumes node 0's output. -/
def gFail : CompiledGraph :=
  { nodes :=
      [ { seq := 0, opId := 0, inputs := [("x", .boundary "value")], outputNames := ["out"] }
      , { seq := 1, opId := 1, inputs := [("x", .boundary "value")], outputNames := ["out"] }
      , { seq := 2, opId := 2, inputs := [("x", .produced 0 "out")], outputNames := ["out"] } ]
    edges := [ { producer := 0, consumer := 2, outName := "out", inName := "x" } ]
    resultSeq := 2 }

/-- An operator environment in which operator 0 fails and all others
succeed with a constant output. -/
def envFail : OpEnv := fun opId _ =>
  if opId = 0 then .error () else .ok [("out", 1)]

/-- Boundary inputs for the fail-fast scenario. -/
def failInput : ValMap := [("value", 3)]

/-- Sequential execution options, as entered by an outer options scope. -/
def seqOpts : ExecutionOptions := { scheduler := "sequential", maxConcurrency := 1 }

/-- Parallel execution options, as entered by an inner options scope. -/
def parOpts : ExecutionOptions := { scheduler := "parallel", maxConcurrency := 2 }

/-- Execution options carrying an invalid scheduler name. -/
def fooOpts : ExecutionOptions := { scheduler := "foo", maxConcurrency := 1 }

/-- A body run inside an options scope; it reads the effective scheduler
name so that scope entry is observable. -/
def demoBody (stk : List ExecutionOptions) : Except EmberError ValMap :=
  .ok [((currentOptions stk).scheduler, 0)]

/-- A recorder state with an active probe holding one sealed record. -/
def demoRecorder : RecorderState :=
  { active := some [mkRecord 0 { opId := 1, argSrcs := [] } []] }

/-- Invariant of a failure-free parallel run of a compiled graph: no
failures, each dispatched node's output is stored and agrees with the
probe's step outputs, and only dispatched nodes have stored outputs. -/
def SimInv (fouts : List ValMap) (n : Nat) (acc : ParAcc) : Prop :=
  acc.failures = [] ∧
  acc.dispatched.Nodup ∧
  (∀ j ∈ acc.dispatched, j < n) ∧
  (∀ j ∈ acc.dispatched, assocFind j acc.done = nth fouts j) ∧
  (∀ j, (assocFind j acc.done).isSome → j ∈ acc.dispatched)

/-- Safety invariant of any parallel run: nodes are dispatched at most
once, stored outputs belong to dispatched nodes, every dispatched node had
all its predecessors' outputs stored, and failed nodes are dispatched nodes
with no stored output. -/
def SafeAcc (g : CompiledGraph) (acc : ParAcc) : Prop :=
  acc.dispatched.Nodup ∧
  (∀ j, (assocFind j acc.done).isSome → j ∈ acc.dispatched) ∧
  (∀ b ∈ acc.dispatched, ∀ q ∈ nodePreds g b, (assocFind q acc.done).isSome) ∧
  (∀ f ∈ acc.failures, f.1 ∈ acc.dispatched ∧ assocFind f.1 acc.done = none)

theorem getLast?_eq_nth {α : Type} : ∀ (l : List α), l.getLast? = nth l (l.length - 1) := by
  intro l
  induction l with
  | nil => rfl
  | cons a l ih =>
    cases l with
    | nil => rfl
    | cons b t => simpa [List.getLast?_cons_cons, nth] using ih


/-- Recording is transparent: the probe performs exactly the computation of
the untraced run, returning the same step outputs or the same failure. -/
theorem runSteps_eq_probe (env : OpEnv) (x : ValMap) :
    ∀ (cs : List Call) (outs : List ValMap),
    runSteps env x cs outs = Except.map Prod.snd (probeSteps env x cs outs) := by
  intro cs
  induction cs with
  | nil => intro outs; rfl
  | cons c cs ih =>
    intro outs
    cases hres : resolveArgs x outs c.argSrcs with
    | none => simp only [runSteps, probeSteps, hres]; rfl
    | some args =>
      cases henv : env c.opId args with
      | error u => simp only [runSteps, probeSteps, hres, henv]; rfl
      | ok out =>
        simp only [runSteps, probeSteps, hres, henv, ih (outs ++ [out])]
        cases hp : probeSteps env x cs (outs ++ [out]) with
        | error e => rfl
        | ok pr => rfl

/-- A successful probe extends the accumulated outputs by one output per
call and produces one record per call. -/
theorem probe_shape (env : OpEnv) (x : ValMap) :
    ∀ (cs : List Call) (outs0 : List ValMap) (recs : List InvocationRecord)
      (fouts : List ValMap),
    probeSteps env x cs outs0 = .ok (recs, fouts) →
    ∃ add, fouts = outs0 ++ add ∧ add.length = cs.length ∧ recs.length = cs.length := by
  intro cs
  induction cs with
  | nil =>
    intro outs0 recs fouts h
    simp only [probeSteps, Except.ok.injEq, Prod.mk.injEq] at h
    exact ⟨[], by simp [← h.1, ← h.2]⟩
  | cons c cs ih =>
    intro outs0 recs fouts h
    cases hres : resolveArgs x outs0 c.argSrcs with
    | none =>
      simp only [probeSteps, hres] at h
      exact Except.noConfusion h
    | some args =>
      cases henv : env c.opId args with
      | error u =>
        simp only [probeSteps, hres, henv] at h
        exact Except.noConfusion h
      | ok out =>
        cases hp : probeSteps env x cs (outs0 ++ [out]) with
        | error e =>
          simp only [probeSteps, hres, henv, hp] at h
          exact Except.noConfusion h
        | ok pr =>
          obtain ⟨recs', fouts'⟩ := pr
          simp only [probeSteps, hres, henv, hp, Except.ok.injEq, Prod.mk.injEq] at h
          obtain ⟨hrecs, hfouts⟩ := h
          obtain ⟨add, hadd, hlen, hrlen⟩ := ih (outs0 ++ [out]) recs' fouts' hp
          refine ⟨out :: add, ?_, by simp [hlen], by simp [← hrecs, hrlen]⟩
          rw [← hfouts, hadd, List.append_assoc]
          rfl

/-- Per-step characterization of a successful probe: for each call index,
the record appended, the concrete output, the prefix of outputs against
which the call's inputs were resolved, and the operator invocation that
produced the output. -/
theorem probe_step_facts (env : OpEnv) (x : ValMap) :
    ∀ (cs : List Call) (outs0 : List ValMap) (recs : List InvocationRecord)
      (fouts : List ValMap),
    probeSteps env x cs outs0 = .ok (recs, fouts) →
    ∀ (k : Nat) (c : Call), nth cs k = some c →
    ∃ args out pre rest,
      nth recs k = some (mkRecord (outs0.length + k) c out) ∧
      nth fouts (outs0.length + k) = some out ∧
      fouts = pre ++ rest ∧ pre.length = outs0.length + k ∧
      resolveArgs x pre c.argSrcs = some args ∧
      env c.opId args = .ok out := by
  intro cs
  induction cs with
  | nil => intro outs0 recs fouts h k c hk; simp [nth] at hk
  | cons c0 cs ih =>
    intro outs0 recs fouts h k c hk
    cases hres : resolveArgs x outs0 c0.argSrcs with
    | none =>
      simp only [probeSteps, hres] at h
      exact Except.noConfusion h
    | some args0 =>
      cases henv : env c0.opId args0 with
      | error u =>
        simp only [probeSteps, hres, henv] at h
        exact Except.noConfusion h
      | ok out0 =>
        cases hp : probeSteps env x cs (outs0 ++ [out0]) with
        | error e =>
          simp only [probeSteps, hres, henv, hp] at h
          exact Except.noConfusion h
        | ok pr =>
          obtain ⟨recs', fouts'⟩ := pr
          simp only [probeSteps, hres, henv, hp, Except.ok.injEq, Prod.mk.injEq] at h
          obtain ⟨hrecs, hfouts⟩ := h
          cases k with
          | zero =>
            simp only [nth, Option.some.injEq] at hk
            subst hk
            obtain ⟨add, hadd, _, _⟩ := probe_shape env x cs (outs0 ++ [out0]) recs' fouts' hp
            refine ⟨args0, out0, outs0, out0 :: add, ?_, ?_, ?_, by simp, hres, henv⟩
            · rw [← hrecs]; simp [nth]
            · rw [← hfouts, hadd, List.append_assoc]
              simpa using nth_append_length outs0 add out0
            · rw [← hfouts, hadd, List.append_assoc]; rfl
          | succ k =>
            have hk' : nth cs k = some c := hk
            obtain ⟨args, out, pre, rest, h1, h2, h3, h4, h5, h6⟩ :=
              ih (outs0 ++ [out0]) recs' fouts' hp k c hk'
            have hlen : outs0.length + (k + 1) = (outs0 ++ [out0]).length + k := by
              simp; omega
            refine ⟨args, out, pre, rest, ?_, ?_, by rw [← hfouts]; exact h3, ?_, h5, h6⟩
            · rw [← hrecs, hlen]
              exact h1
            · rw [← hfouts, hlen]
              exact h2
            · rw [h4]; simp; omega

/-- Successful argument resolution resolves each individual source. -/
theorem resolveArgs_each (x : ValMap) (outs : List ValMap) :
    ∀ (l : List (Name × Src)) (vs : ValMap),
    resolveArgs x outs l = some vs →
    ∀ a ∈ l, ∃ v, resolveSrc x outs a.2 = some v := by
  intro l
  induction l with
  | nil => intro vs _ a ha; simp at ha
  | cons b l ih =>
    intro vs h a ha
    cases hsrc : resolveSrc x outs b.2 with
    | none =>
      simp only [resolveArgs, hsrc] at h
      exact Option.noConfusion h
    | some v =>
      cases hrest : resolveArgs x outs l with
      | none =>
        simp only [resolveArgs, hsrc, hrest] at h
        exact Option.noConfusion h
      | some m =>
        rcases List.mem_cons.mp ha with ha | ha
        · exact ⟨v, ha ▸ hsrc⟩
        · exact ih m hrest a ha

/-- When the stored node outputs agree with the step outputs at every
index, handle resolution coincides with source resolution. -/
theorem resolveHandle_eq_src (x : ValMap) (outs : List ValMap)
    (done : List (Nat × ValMap)) (H : ∀ j, assocFind j done = nth outs j) (s : Src) :
    resolveHandle x done (handleOfSrc s) = resolveSrc x outs s := by
  cases s with
  | boundary b => rfl
  | fromStep j m => simp [resolveHandle, resolveSrc, handleOfSrc, H j]

/-- List version of `resolveHandle_eq_src`, matching a record's input
snapshot against the call's sources. -/
theorem resolveNodeInputs_eq_args (x : ValMap) (outs : List ValMap)
    (done : List (Nat × ValMap)) (H : ∀ j, assocFind j done = nth outs j) :
    ∀ (l : List (Name × Src)),
    resolveNodeInputs x done (l.map (fun a => (a.1, handleOfSrc a.2))) =
      resolveArgs x outs l := by
  intro l
  induction l with
  | nil => rfl
  | cons a l ih =>
    simp only [List.map_cons, resolveNodeInputs, resolveArgs,
      resolveHandle_eq_src x outs done H a.2, ih]

/-- Partial-agreement version used by the parallel scheduler: a source that
resolved against a prefix of the step outputs resolves to the same value
through its handle, provided the producing step it references is stored. -/
theorem resolveHandle_of_src (x : ValMap) (pre rest : List ValMap)
    (fouts : List ValMap) (hpre : fouts = pre ++ rest)
    (done : List (Nat × ValMap)) (s : Src) (v : Value)
    (hres : resolveSrc x pre s = some v)
    (hok : ∀ j m', s = Src.fromStep j m' → assocFind j done = nth fouts j) :
    resolveHandle x done (handleOfSrc s) = some v := by
  cases s with
  | boundary b => exact hres
  | fromStep j m =>
    cases hj : nth pre j with
    | none => simp [resolveSrc, hj] at hres
    | some om =>
      have hjlen : j < pre.length := by
        have : (nth pre j).isSome := by rw [hj]; rfl
        exact (nth_isSome_iff pre j).mp this
      have hfull : nth fouts j = some om := by
        rw [hpre, nth_append_left pre rest j hjlen, hj]
      have hdone : assocFind j done = some om := by
        rw [hok j m rfl, hfull]
      simp only [resolveSrc, hj] at hres
      simp [resolveHandle, handleOfSrc, hdone, hres]

/-- List version of `resolveHandle_of_src`. -/
theorem resolveNodeInputs_of_args (x : ValMap) (pre rest : List ValMap)
    (fouts : List ValMap) (hpre : fouts = pre ++ rest) (done : List (Nat × ValMap)) :
    ∀ (l : List (Name × Src)) (vs : ValMap),
    resolveArgs x pre l = some vs →
    (∀ a ∈ l, ∀ j m', a.2 = Src.fromStep j m' → assocFind j done = nth fouts j) →
    resolveNodeInputs x done (l.map (fun a => (a.1, handleOfSrc a.2))) = some vs := by
  intro l
  induction l with
  | nil => intro vs h _; exact h
  | cons a l ih =>
    intro vs h hok
    cases hsrc : resolveSrc x pre a.2 with
    | none =>
      simp only [resolveArgs, hsrc] at h
      exact Option.noConfusion h
    | some v =>
      cases hrest : resolveArgs x pre l with
      | none =>
        simp only [resolveArgs, hsrc, hrest] at h
        exact Option.noConfusion h
      | some m =>
        simp only [resolveArgs, hsrc, hrest, Option.some.injEq] at h
        have h1 := resolveHandle_of_src x pre rest fouts hpre done a.2 v hsrc
          (fun j m' hs => hok a (List.mem_cons_self a l) j m' hs)
        have h2 := ih m hrest (fun b hb j m' hs => hok b (List.mem_cons_of_mem a hb) j m' hs)
        simp only [List.map_cons, resolveNodeInputs, h1, h2, ← h]

/-- Every record of a successful probe is the record of one of the calls,
at its sequence index. -/
theorem probe_rec_shape (env : OpEnv) (x : ValMap)
    (cs : List Call) (outs0 : List ValMap) (recs : List InvocationRecord)
    (fouts : List ValMap) (h : probeSteps env x cs outs0 = .ok (recs, fouts)) :
    ∀ r ∈ recs, ∃ k c out, nth cs k = some c ∧ r = mkRecord (outs0.length + k) c out := by
  intro r hr
  obtain ⟨k, hk⟩ := mem_nth recs r hr
  obtain ⟨add, _, _, hrlen⟩ := probe_shape env x cs outs0 recs fouts h
  have hklt : k < recs.length := (nth_isSome_iff recs k).mp (by rw [hk]; rfl)
  have hcs : (nth cs k).isSome := (nth_isSome_iff cs k).mpr (by omega)
  cases hc : nth cs k with
  | none => rw [hc] at hcs; exact absurd hcs (by simp)
  | some c =>
    obtain ⟨args, out, pre, rest, h1, _, _, _, _, _⟩ :=
      probe_step_facts env x cs outs0 recs fouts h k c hc
    rw [hk] at h1
    exact ⟨k, c, out, hc, by injection h1⟩

/-- The output snapshot of every record of a successful probe carries
handles produced by that record's own sequence index. -/
theorem probe_outputs_shape (env : OpEnv) (x : ValMap)
    (cs : List Call) (outs0 : List ValMap) (recs : List InvocationRecord)
    (fouts : List ValMap) (h : probeSteps env x cs outs0 = .ok (recs, fouts)) :
    ∀ r ∈ recs, ∀ q ∈ r.outputs, ∃ n', q = (n', Handle.produced r.seq n') := by
  intro r hr q hq
  obtain ⟨k, c, out, _, hrec⟩ := probe_rec_shape env x cs outs0 recs fouts h r hr
  subst hrec
  simp only [mkRecord, List.mem_map] at hq
  obtain ⟨p, _, hp⟩ := hq
  exact ⟨p.1, by simp [mkRecord, ← hp]⟩

/-- `producesHandle` is membership of the handle among the snapshot's
output handles. -/
theorem producesHandle_iff (h : Handle) :
    ∀ (l : List (Name × Handle)), producesHandle h l = true ↔ ∃ q ∈ l, q.2 = h := by
  intro l
  induction l with
  | nil => simp [producesHandle]
  | cons q qs ih =>
    simp only [producesHandle, Bool.or_eq_true, decide_eq_true_eq, ih]
    constructor
    · rintro (hq | ⟨p, hp, hph⟩)
      · exact ⟨q, List.mem_cons_self q qs, hq⟩
      · exact ⟨p, List.mem_cons_of_mem q hp, hph⟩
    · rintro ⟨p, hp, hph⟩
      rcases List.mem_cons.mp hp with rfl | hp
      · exact Or.inl hph
      · exact Or.inr ⟨p, hp, hph⟩

/-- Under the output-snapshot shape invariant, the provenance index can
attribute a produced handle only to its producing step. -/
theorem provLookup_eq (recs : List InvocationRecord)
    (Houts : ∀ r ∈ recs, ∀ q ∈ r.outputs, ∃ n', q = (n', Handle.produced r.seq n')) :
    ∀ (j : Nat) (m : Name) (p : Nat),
    provLookup recs (.produced j m) = some p → p = j := by
  induction recs with
  | nil => intro j m p hp; simp [provLookup] at hp
  | cons r rs ih =>
    intro j m p hp
    have Houts' : ∀ r' ∈ rs, ∀ q ∈ r'.outputs, ∃ n', q = (n', Handle.produced r'.seq n') :=
      fun r' hr' => Houts r' (List.mem_cons_of_mem r hr')
    cases hins : provLookup rs (.produced j m) with
    | some p' =>
      simp only [provLookup, hins, Option.some.injEq] at hp
      exact hp ▸ ih Houts' j m p' hins
    | none =>
      simp only [provLookup, hins] at hp
      by_cases hmatch : producesHandle (Handle.produced j m) r.outputs = true
      · rw [if_pos hmatch, Option.some.injEq] at hp
        obtain ⟨q, hq, hqh⟩ := (producesHandle_iff _ r.outputs).mp hmatch
        obtain ⟨n', hn'⟩ := Houts r (List.mem_cons_self r rs) q hq
        rw [hn'] at hqh
        simp only at hqh
        injection hqh with h1 h2
        omega
      · rw [if_neg hmatch] at hp
        exact Option.noConfusion hp

/-- A handle that some record's snapshot produces is found by the
provenance index. -/
theorem provLookup_isSome (h : Handle) :
    ∀ (recs : List InvocationRecord) (r : InvocationRecord), r ∈ recs →
    producesHandle h r.outputs = true → ∃ p, provLookup recs h = some p := by
  intro recs
  induction recs with
  | nil => intro r hr; simp at hr
  | cons r0 rs ih =>
    intro r hr hmatch
    cases hins : provLookup rs h with
    | some p => exact ⟨p, by simp [provLookup, hins]⟩
    | none =>
      rcases List.mem_cons.mp hr with rfl | hr
      · exact ⟨r.seq, by simp [provLookup, hins, hmatch]⟩
      · obtain ⟨p, hp⟩ := ih r hr hmatch
        rw [hp] at hins
        exact Option.noConfusion hins

/-- Boundary handles are never attributed by the provenance index. -/
theorem provLookup_boundary_none (b : Name) :
    ∀ (recs : List InvocationRecord),
    (∀ r ∈ recs, ∀ q ∈ r.outputs, ∃ n', q = (n', Handle.produced r.seq n')) →
    provLookup recs (.boundary b) = none := by
  intro recs
  induction recs with
  | nil => intro _; rfl
  | cons r rs ih =>
    intro Houts
    have hins : provLookup rs (.boundary b) = none :=
      ih (fun r' hr' => Houts r' (List.mem_cons_of_mem r hr'))
    have hmatch : producesHandle (Handle.boundary b) r.outputs = false := by
      by_contra hm
      have hm' : producesHandle (Handle.boundary b) r.outputs = true := by
        revert hm; cases producesHandle (Handle.boundary b) r.outputs <;> simp
      obtain ⟨q, hq, hqh⟩ := (producesHandle_iff _ r.outputs).mp hm'
      obtain ⟨n', hn'⟩ := Houts r (List.mem_cons_self r rs) q hq
      rw [hn'] at hqh
      exact Handle.noConfusion hqh
    simp [provLookup, hins, hmatch]

/-- Membership in a record's contributed edges. -/
theorem mem_edgesOfRecord (recs : List InvocationRecord) (r : InvocationRecord)
    (e : Edge) :
    e ∈ edgesOfRecord recs r ↔
      ∃ q ∈ r.inputs, ∃ p, provLookup recs q.2 = some p ∧
        e = { producer := p, consumer := r.seq,
              outName := handleName q.2, inName := q.1 } := by
  simp only [edgesOfRecord, List.mem_filterMap]
  constructor
  · rintro ⟨q, hq, hfq⟩
    cases hprov : provLookup recs q.2 with
    | none => rw [hprov] at hfq; exact Option.noConfusion hfq
    | some p =>
      rw [hprov] at hfq
      exact ⟨q, hq, p, hprov, by injection hfq with h; exact h.symm⟩
  · rintro ⟨q, hq, p, hprov, he⟩
    exact ⟨q, hq, by rw [hprov, he]⟩

/-- A successful build on a non-empty trace yields the literal graph. -/
theorem buildGraph_ok (recs : List InvocationRecord) (g : CompiledGraph)
    (h : buildGraph recs = .ok g) :
    g = { nodes := recs.map nodeOfRecord
          edges := recs.flatMap (edgesOfRecord recs)
          resultSeq := recs.length - 1 } ∧ recs ≠ [] := by
  cases recs with
  | nil => exact Except.noConfusion h
  | cons r rs =>
    refine ⟨?_, by simp⟩
    simp only [buildGraph, Except.ok.injEq] at h
    exact h.symm

/-- Every edge of a graph compiled from a successful probe points from an
earlier sequence index to a strictly later one. -/
theorem compiled_edge_lt (env : OpEnv) (p : Pipeline) (x : ValMap)
    (recs : List InvocationRecord) (fouts : List ValMap) (g : CompiledGraph)
    (hprobe : probeSteps env x p.calls [] = .ok (recs, fouts))
    (hbuild : buildGraph recs = .ok g) :
    ∀ e ∈ g.edges, e.producer < e.consumer := by
  obtain ⟨hg, hne⟩ := buildGraph_ok recs g hbuild
  have Houts := probe_outputs_shape env x p.calls [] recs fouts hprobe
  intro e he
  rw [hg] at he
  simp only [List.mem_flatMap] at he
  obtain ⟨r, hr, her⟩ := he
  obtain ⟨q, hq, p', hprov, he_eq⟩ := (mem_edgesOfRecord recs r e).mp her
  obtain ⟨k, hk⟩ := mem_nth recs r hr
  obtain ⟨add, _, _, hrlen⟩ := probe_shape env x p.calls [] recs fouts hprobe
  have hklt : k < recs.length := (nth_isSome_iff recs k).mp (by rw [hk]; rfl)
  cases hc : nth p.calls k with
  | none =>
    have h2 : (nth p.calls k).isSome := (nth_isSome_iff p.calls k).mpr (by omega)
    rw [hc] at h2
    exact absurd h2 (by simp)
  | some c =>
    obtain ⟨args, out, pre, rest, h1, h2, h3, h4, h5, h6⟩ :=
      probe_step_facts env x p.calls [] recs fouts hprobe k c hc
    simp only [List.length_nil, Nat.zero_add] at h1 h2 h4
    rw [hk] at h1
    have hrk : r = mkRecord k c out := by injection h1
    subst hrk
    have hqin : q ∈ c.argSrcs.map (fun a => (a.1, handleOfSrc a.2)) := hq
    simp only [List.mem_map] at hqin
    obtain ⟨a, ha, haq⟩ := hqin
    obtain ⟨v, hv⟩ := resolveArgs_each x pre c.argSrcs args h5 a ha
    obtain ⟨nm, s⟩ := a
    cases s with
    | boundary b =>
      rw [← haq] at hprov
      simp only [handleOfSrc] at hprov
      rw [provLookup_boundary_none b recs Houts] at hprov
      exact Option.noConfusion hprov
    | fromStep j m =>
      rw [← haq] at hprov
      simp only [handleOfSrc] at hprov
      have hpj : p' = j := provLookup_eq recs Houts j m p' hprov
      simp only [resolveSrc] at hv
      cases hnth : nth pre j with
      | none => rw [hnth] at hv; exact Option.noConfusion hv
      | some oj =>
        have hjlt : j < pre.length := (nth_isSome_iff pre j).mp (by rw [hnth]; rfl)
        rw [he_eq]
        simp only [mkRecord]
        omega

/-- An input of call `k` drawn from step `j`'s output `m` gives rise to the
corresponding edge of the compiled graph. -/
theorem referenced_edge (env : OpEnv) (p : Pipeline) (x : ValMap)
    (recs : List InvocationRecord) (fouts : List ValMap) (g : CompiledGraph)
    (hprobe : probeSteps env x p.calls [] = .ok (recs, fouts))
    (hbuild : buildGraph recs = .ok g) :
    ∀ (k : Nat) (c : Call), nth p.calls k = some c →
    ∀ (nm : Name) (j : Nat) (m : Name), (nm, Src.fromStep j m) ∈ c.argSrcs →
    ({ producer := j, consumer := k, outName := m, inName := nm } : Edge) ∈ g.edges := by
  obtain ⟨hg, hne⟩ := buildGraph_ok recs g hbuild
  have Houts := probe_outputs_shape env x p.calls [] recs fouts hprobe
  obtain ⟨add0, _, _, hrlen⟩ := probe_shape env x p.calls [] recs fouts hprobe
  intro k c hc nm j m ha
  obtain ⟨args, out, pre, rest, h1, h2, h3, h4, h5, h6⟩ :=
    probe_step_facts env x p.calls [] recs fouts hprobe k c hc
  simp only [List.length_nil, Nat.zero_add] at h1 h2 h4
  obtain ⟨v, hv⟩ := resolveArgs_each x pre c.argSrcs args h5 (nm, Src.fromStep j m) ha
  simp only [resolveSrc] at hv
  cases hnth : nth pre j with
  | none => rw [hnth] at hv; exact Option.noConfusion hv
  | some oj =>
    rw [hnth] at hv
    have hjlt : j < pre.length := (nth_isSome_iff pre j).mp (by rw [hnth]; rfl)
    have hfoutsj : nth fouts j = some oj := by
      rw [h3, nth_append_left pre rest j hjlt, hnth]
    have hkcs : k < p.calls.length := (nth_isSome_iff p.calls k).mp (by rw [hc]; rfl)
    have hjcs : (nth p.calls j).isSome := (nth_isSome_iff p.calls j).mpr (by omega)
    cases hcj : nth p.calls j with
    | none => rw [hcj] at hjcs; exact absurd hjcs (by simp)
    | some cj =>
      obtain ⟨argsj, outj, prej, restj, g1, g2, g3, g4, g5, g6⟩ :=
        probe_step_facts env x p.calls [] recs fouts hprobe j cj hcj
      simp only [List.length_nil, Nat.zero_add] at g1 g2 g4
      have houtj : outj = oj := by
        rw [hfoutsj] at g2
        exact (Option.some.inj g2).symm
      have hv' : lookupVal m outj = some v := by
        rw [houtj]
        exact hv
      have hmem_out : (m, Handle.produced j m) ∈ (mkRecord j cj outj).outputs := by
        simp only [mkRecord, List.mem_map]
        exact ⟨(m, v), lookupVal_mem m outj v hv', rfl⟩
      have hrecj : mkRecord j cj outj ∈ recs := nth_mem recs j _ g1
      have hproduces : producesHandle (Handle.produced j m) (mkRecord j cj outj).outputs = true := by
        rw [producesHandle_iff]
        exact ⟨(m, Handle.produced j m), hmem_out, rfl⟩
      obtain ⟨p', hp'⟩ := provLookup_isSome (Handle.produced j m) recs (mkRecord j cj outj)
        hrecj hproduces
      have hpj : p' = j := provLookup_eq recs Houts j m p' hp'
      rw [hpj] at hp'
      have hreck : mkRecord k c out ∈ recs := nth_mem recs k _ h1
      have hqin : (nm, Handle.produced j m) ∈ (mkRecord k c out).inputs := by
        simp only [mkRecord, List.mem_map]
        exact ⟨(nm, Src.fromStep j m), ha, rfl⟩
      have hedge : ({ producer := j, consumer := k, outName := m, inName := nm } : Edge) ∈
          edgesOfRecord recs (mkRecord k c out) := by
        rw [mem_edgesOfRecord]
        exact ⟨(nm, Handle.produced j m), hqin, j, hp', by simp [mkRecord, handleName]⟩
      rw [hg]
      simp only [List.mem_flatMap]
      exact ⟨mkRecord k c out, hreck, hedge⟩

/-- In a graph whose edges all increase the sequence index, dependency
chains increase it as well. -/
theorem transGen_lt (g : CompiledGraph)
    (hmono : ∀ e ∈ g.edges, e.producer < e.consumer) :
    ∀ a b, Relation.TransGen (edgeStep g) a b → a < b := by
  intro a b h
  induction h with
  | single hab =>
    obtain ⟨e, he, hp, hc⟩ := hab
    have := hmono e he
    omega
  | tail hab hbc ih =>
    obtain ⟨e, he, hp, hc⟩ := hbc
    have := hmono e he
    omega

/-- C4: every edge of a compiled graph points from a strictly smaller
sequence index to a larger one, and the graph is acyclic. -/
theorem topological_soundness (env : OpEnv) (p : Pipeline) (x : ValMap)
    (recs : List InvocationRecord) (fouts : List ValMap) (g : CompiledGraph)
    (hprobe : probeSteps env x p.calls [] = .ok (recs, fouts))
    (hbuild : buildGraph recs = .ok g) :
    (∀ e ∈ g.edges, e.producer < e.consumer) ∧
    (∀ a, ¬ Relation.TransGen (edgeStep g) a a) := by
  have hmono := compiled_edge_lt env p x recs fouts g hprobe hbuild
  refine ⟨hmono, fun a ha => ?_⟩
  have := transGen_lt g hmono a a ha
  omega

/-- The sequential scheduler replays a successful probe exactly: starting
from stored outputs that agree with the accumulated step outputs, it
completes with stored outputs that agree with the final step outputs. -/
theorem seqGo_sim (env : OpEnv) (x : ValMap) :
    ∀ (cs : List Call) (outs0 : List ValMap) (recs : List InvocationRecord)
      (fouts : List ValMap) (done0 : List (Nat × ValMap)),
    probeSteps env x cs outs0 = .ok (recs, fouts) →
    (∀ j, assocFind j done0 = nth outs0 j) →
    ∃ doneF, seqRunGo env x (recs.map nodeOfRecord) done0 = .ok doneF ∧
      ∀ j, assocFind j doneF = nth fouts j := by
  intro cs
  induction cs with
  | nil =>
    intro outs0 recs fouts done0 h H
    simp only [probeSteps, Except.ok.injEq, Prod.mk.injEq] at h
    refine ⟨done0, ?_, ?_⟩
    · rw [← h.1]; rfl
    · rw [← h.2]; exact H
  | cons c cs ih =>
    intro outs0 recs fouts done0 h H
    cases hres : resolveArgs x outs0 c.argSrcs with
    | none =>
      simp only [probeSteps, hres] at h
      exact Except.noConfusion h
    | some args =>
      cases henv : env c.opId args with
      | error u =>
        simp only [probeSteps, hres, henv] at h
        exact Except.noConfusion h
      | ok out =>
        cases hp : probeSteps env x cs (outs0 ++ [out]) with
        | error e =>
          simp only [probeSteps, hres, henv, hp] at h
          exact Except.noConfusion h
        | ok pr =>
          obtain ⟨recs', fouts'⟩ := pr
          simp only [probeSteps, hres, henv, hp, Except.ok.injEq, Prod.mk.injEq] at h
          obtain ⟨hrecs, hfouts⟩ := h
          have H' : ∀ j, assocFind j (done0 ++ [(outs0.length, out)]) =
              nth (outs0 ++ [out]) j := by
            intro j
            rw [assocFind_append]
            cases hd : assocFind j done0 with
            | some m =>
              have : nth outs0 j = some m := by rw [← H j, hd]
              have hjlt : j < outs0.length := (nth_isSome_iff outs0 j).mp (by rw [this]; rfl)
              rw [nth_append_left outs0 [out] j hjlt, this]
            | none =>
              have hnone : nth outs0 j = none := by rw [← H j, hd]
              have hge : outs0.length ≤ j := by
                by_contra hlt
                have : (nth outs0 j).isSome := (nth_isSome_iff outs0 j).mpr (by omega)
                rw [hnone] at this
                exact absurd this (by simp)
              by_cases hj : j = outs0.length
              · show assocFind j [(outs0.length, out)] = nth (outs0 ++ [out]) j
                rw [hj]
                have h1 : assocFind outs0.length [(outs0.length, out)] = some out := by
                  simp [assocFind]
                have h2 : nth (outs0 ++ [out]) outs0.length = some out := by
                  simpa using nth_append_length outs0 ([] : List ValMap) out
                rw [h1, h2]
              · show assocFind j [(outs0.length, out)] = nth (outs0 ++ [out]) j
                have h1 : assocFind j [(outs0.length, out)] = none := by
                  simp [assocFind, hj]
                have h2 : nth (outs0 ++ [out]) j = none := by
                  apply nth_eq_none_of_le
                  simp
                  omega
                rw [h1, h2]
          obtain ⟨doneF, hrun, hagree⟩ := ih (outs0 ++ [out]) recs' fouts'
            (done0 ++ [(outs0.length, out)]) hp H'
          refine ⟨doneF, ?_, by rw [← hfouts]; exact hagree⟩
          rw [← hrecs]
          simp only [List.map_cons, seqRunGo, nodeOfRecord, mkRecord,
            resolveNodeInputs_eq_args x outs0 done0 H c.argSrcs, hres, henv]
          exact hrun

/-- Under the sequential policy, running the graph compiled from a
successful probe reproduces the direct, untraced call exactly. -/
theorem seqRun_eq_direct (env : OpEnv) (p : Pipeline) (x : ValMap)
    (recs : List InvocationRecord) (fouts : List ValMap) (g : CompiledGraph)
    (r : ValMap)
    (hprobe : probeSteps env x p.calls [] = .ok (recs, fouts))
    (hbuild : buildGraph recs = .ok g)
    (hdirect : runDirect env p x = .ok r) :
    seqRun env g x = .ok r := by
  obtain ⟨hg, hne⟩ := buildGraph_ok recs g hbuild
  have hsteps : runSteps env x p.calls [] = .ok fouts := by
    rw [runSteps_eq_probe env x p.calls [], hprobe]
    rfl
  have hlast : fouts.getLast? = some r := by
    simp only [runDirect, hsteps] at hdirect
    cases hl : fouts.getLast? with
    | none => rw [hl] at hdirect; exact Except.noConfusion hdirect
    | some m =>
      rw [hl] at hdirect
      simp only [Except.ok.injEq] at hdirect
      rw [hdirect]
  obtain ⟨add, hadd, hlen, hrlen⟩ := probe_shape env x p.calls [] recs fouts hprobe
  have hflen : fouts.length = recs.length := by rw [hadd]; simp [hlen, hrlen]
  have H0 : ∀ j, assocFind j ([] : List (Nat × ValMap)) = nth ([] : List ValMap) j := by
    intro j; rfl
  obtain ⟨doneF, hrun, hagree⟩ := seqGo_sim env x p.calls [] recs fouts [] hprobe H0
  have hfind : assocFind g.resultSeq doneF = some r := by
    have : g.resultSeq = recs.length - 1 := by rw [hg]
    rw [this, hagree (recs.length - 1), ← hflen, ← getLast?_eq_nth fouts, hlast]
  have hnodes : g.nodes = recs.map nodeOfRecord := by rw [hg]
  simp only [seqRun, hnodes, hrun, hfind]

theorem nth_ext {α : Type} : ∀ (l₁ l₂ : List α),
    (∀ k, nth l₁ k = nth l₂ k) → l₁ = l₂ := by
  intro l₁
  induction l₁ with
  | nil =>
    intro l₂ h
    cases l₂ with
    | nil => rfl
    | cons b t => exact Option.noConfusion (h 0)
  | cons a t ih =>
    intro l₂ h
    cases l₂ with
    | nil => exact Option.noConfusion (h 0)
    | cons b t' =>
      have h0 : a = b := Option.some.inj (h 0)
      have ht : t = t' := ih t' (fun k => h (k + 1))
      rw [h0, ht]

theorem nth_map {α β : Type} (f : α → β) : ∀ (l : List α) (k : Nat),
    nth (l.map f) k = (nth l k).map f := by
  intro l
  induction l with
  | nil => intro k; rfl
  | cons a t ih =>
    intro k
    cases k with
    | zero => rfl
    | succ k => exact ih k

theorem nth_range : ∀ (n k : Nat), k < n → nth (List.range n) k = some k := by
  intro n
  induction n with
  | zero => intro k hk; omega
  | succ n ih =>
    intro k hk
    rw [List.range_succ]
    by_cases h : k < n
    · rw [nth_append_left _ _ k (by simpa using h)]
      exact ih k h
    · have hk' : k = n := by omega
      subst hk'
      have := nth_append_length (List.range k) ([] : List Nat) k
      simpa using this

/-- The node sequence indices of a graph compiled from a successful probe
are exactly `0, 1, ..., n-1` in order. -/
theorem seqs_eq_range (env : OpEnv) (p : Pipeline) (x : ValMap)
    (recs : List InvocationRecord) (fouts : List ValMap)
    (hprobe : probeSteps env x p.calls [] = .ok (recs, fouts)) :
    (recs.map nodeOfRecord).map Node.seq = List.range recs.length := by
  obtain ⟨add, hadd, hlen, hrlen⟩ := probe_shape env x p.calls [] recs fouts hprobe
  apply nth_ext
  intro k
  rw [nth_map, nth_map]
  by_cases hk : k < recs.length
  · have hcs : (nth p.calls k).isSome := (nth_isSome_iff p.calls k).mpr (by omega)
    cases hc : nth p.calls k with
    | none => rw [hc] at hcs; exact absurd hcs (by simp)
    | some c =>
      obtain ⟨args, out, pre, rest, h1, _, _, _, _, _⟩ :=
        probe_step_facts env x p.calls [] recs fouts hprobe k c hc
      simp only [List.length_nil, Nat.zero_add] at h1
      rw [h1, nth_range recs.length k hk]
      rfl
  · rw [nth_eq_none_of_le recs k (by omega),
      nth_eq_none_of_le (List.range recs.length) k (by simpa using hk)]
    rfl

/-- Membership in a node's predecessor list. -/
theorem mem_nodePreds (g : CompiledGraph) (s q : Nat) :
    q ∈ nodePreds g s ↔ ∃ e ∈ g.edges, e.consumer = s ∧ e.producer = q := by
  simp only [nodePreds, List.mem_filterMap]
  constructor
  · rintro ⟨e, he, hfe⟩
    by_cases hc : e.consumer = s
    · rw [if_pos hc] at hfe
      exact ⟨e, he, hc, Option.some.inj hfe⟩
    · rw [if_neg hc] at hfe
      exact Option.noConfusion hfe
  · rintro ⟨e, he, hc, hp⟩
    exact ⟨e, he, by rw [if_pos hc, hp]⟩

/-- A duplicate-free list of naturals below `n` has length at most `n`. -/
theorem nodup_bound_length (l : List Nat) (n : Nat)
    (hnd : l.Nodup) (hb : ∀ y ∈ l, y < n) : l.length ≤ n := by
  have h1 : l.toFinset.card = l.length := List.toFinset_card_of_nodup hnd
  have h2 : l.toFinset ⊆ Finset.range n := by
    intro y hy
    simp only [List.mem_toFinset] at hy
    simpa using hb y hy
  have := Finset.card_le_card h2
  simp only [Finset.card_range, h1] at this
  exact this

/-- A wave whose nodes all resolve and succeed records no failures and
stores exactly the probe outputs of the dispatched nodes. -/
theorem runWave_ok (env : OpEnv) (x : ValMap) (done : List (Nat × ValMap))
    (fouts : List ValMap) :
    ∀ (l : List Node),
    (∀ nd ∈ l, ∃ args out, resolveNodeInputs x done nd.inputs = some args ∧
       env nd.opId args = .ok out ∧ nth fouts nd.seq = some out) →
    (runWave env x done l).2 = [] ∧
    (∀ j, j ∈ l.map Node.seq → ∃ out, nth fouts j = some out ∧
        assocFind j (runWave env x done l).1 = some out) ∧
    (∀ j, ¬ j ∈ l.map Node.seq → assocFind j (runWave env x done l).1 = none) := by
  intro l
  induction l with
  | nil =>
    intro _
    exact ⟨rfl, by intro j hj; simp at hj, by intro j hj; rfl⟩
  | cons nd nds ih =>
    intro hexec
    obtain ⟨args, out, hres, henv, hout⟩ := hexec nd (List.mem_cons_self nd nds)
    obtain ⟨ih1, ih2, ih3⟩ := ih (fun b hb => hexec b (List.mem_cons_of_mem nd hb))
    have hwave : runWave env x done (nd :: nds) =
        ((nd.seq, out) :: (runWave env x done nds).1, (runWave env x done nds).2) := by
      simp only [runWave, hres, henv]
    refine ⟨by rw [hwave]; exact ih1, ?_, ?_⟩
    · intro j hj
      rw [hwave]
      by_cases hjs : j = nd.seq
      · subst hjs
        exact ⟨out, hout, by simp [assocFind]⟩
      · simp only [List.map_cons, List.mem_cons] at hj
        rcases hj with hj | hj
        · exact absurd hj hjs
        · obtain ⟨out', hout', hfind'⟩ := ih2 j hj
          exact ⟨out', hout', by simpa [assocFind, hjs] using hfind'⟩
    · intro j hj
      rw [hwave]
      simp only [List.map_cons, List.mem_cons, not_or] at hj
      obtain ⟨hj1, hj2⟩ := hj
      simpa [assocFind, hj1] using ih3 j hj2

/-- The parallel dispatch loop on a graph compiled from a successful probe
completes without failures and returns the probe's final output. -/
theorem parGo_sim (env : OpEnv) (p : Pipeline) (x : ValMap)
    (recs : List InvocationRecord) (fouts : List ValMap) (g : CompiledGraph)
    (rLast : ValMap)
    (hprobe : probeSteps env x p.calls [] = .ok (recs, fouts))
    (hbuild : buildGraph recs = .ok g)
    (hlast : nth fouts (recs.length - 1) = some rLast) :
    ∀ (fuel : Nat) (acc : ParAcc), SimInv fouts recs.length acc →
    recs.length + 1 ≤ acc.dispatched.length + fuel →
    (parGo env g x fuel acc).1 = .ok rLast := by
  obtain ⟨hg, hne⟩ := buildGraph_ok recs g hbuild
  obtain ⟨add, hadd, hlen, hrlen⟩ := probe_shape env x p.calls [] recs fouts hprobe
  have hflen : fouts.length = recs.length := by rw [hadd]; simp [hlen, hrlen]
  have hmono := compiled_edge_lt env p x recs fouts g hprobe hbuild
  have hseqs : g.nodes.map Node.seq = List.range recs.length := by
    rw [hg]
    exact seqs_eq_range env p x recs fouts hprobe
  have hnpos : 0 < recs.length := by
    cases recs with
    | nil => exact absurd rfl hne
    | cons r rs => simp
  intro fuel
  induction fuel with
  | zero =>
    intro acc hinv hcnt
    obtain ⟨_, hnd, hbound, _, _⟩ := hinv
    have := nodup_bound_length acc.dispatched recs.length hnd hbound
    omega
  | succ fuel ih =>
    intro acc hinv hcnt
    obtain ⟨hfail, hnd, hbound, hagree, hcover⟩ := hinv
    have hexec : ∀ b ∈ readyNodes g acc, ∃ args out,
        resolveNodeInputs x acc.done b.inputs = some args ∧
        env b.opId args = .ok out ∧ nth fouts b.seq = some out := by
      intro b hb
      simp only [readyNodes, List.mem_filter, Bool.and_eq_true, decide_eq_true_eq] at hb
      obtain ⟨hbnodes, hnotd, hcready⟩ := hb
      have hbnodes' : b ∈ recs.map nodeOfRecord := by rw [hg] at hbnodes; exact hbnodes
      simp only [List.mem_map] at hbnodes'
      obtain ⟨rec, hrec, hrecb⟩ := hbnodes'
      obtain ⟨k, hk⟩ := mem_nth recs rec hrec
      have hklt : k < recs.length := (nth_isSome_iff recs k).mp (by rw [hk]; rfl)
      have hcs : (nth p.calls k).isSome := (nth_isSome_iff p.calls k).mpr (by omega)
      cases hc : nth p.calls k with
      | none => rw [hc] at hcs; exact absurd hcs (by simp)
      | some c =>
        obtain ⟨args, out, pre, rest, h1, h2, h3, h4, h5, h6⟩ :=
          probe_step_facts env x p.calls [] recs fouts hprobe k c hc
        simp only [List.length_nil, Nat.zero_add] at h1 h2 h4
        rw [hk] at h1
        have hrk : rec = mkRecord k c out := Option.some.inj h1
        subst hrk
        rw [← hrecb] at hcready ⊢
        have hok : ∀ a ∈ c.argSrcs, ∀ j m', a.2 = Src.fromStep j m' →
            assocFind j acc.done = nth fouts j := by
          intro a ha j m' ha2
          obtain ⟨an, as⟩ := a
          simp only at ha2
          subst ha2
          have hedge := referenced_edge env p x recs fouts g hprobe hbuild k c hc
            an j m' ha
          have hpred : j ∈ nodePreds g k := by
            rw [mem_nodePreds]
            exact ⟨_, hedge, rfl, rfl⟩
          have hsome : (assocFind j acc.done).isSome := by
            have hready' : isReady g acc.done (nodeOfRecord (mkRecord k c out)) = true :=
              hcready
            simp only [isReady, List.all_eq_true, nodeOfRecord, mkRecord] at hready'
            exact hready' j hpred
          exact hagree j (hcover j hsome)
        have hres : resolveNodeInputs x acc.done (nodeOfRecord (mkRecord k c out)).inputs =
            some args := by
          simp only [nodeOfRecord, mkRecord]
          exact resolveNodeInputs_of_args x pre rest fouts h3 acc.done c.argSrcs args h5 hok
        exact ⟨args, out, hres, h6, h2⟩
    cases hready : readyNodes g acc with
    | nil =>
      have hall : ∀ k, k < recs.length → k ∈ acc.dispatched := by
        intro k
        induction k using Nat.strong_induction_on with
        | _ k ihk =>
          intro hkn
          by_contra hknot
          have hcs : (nth p.calls k).isSome := (nth_isSome_iff p.calls k).mpr (by omega)
          cases hc : nth p.calls k with
          | none => rw [hc] at hcs; exact absurd hcs (by simp)
          | some c =>
            obtain ⟨args, out, pre, rest, h1, h2, h3, h4, h5, h6⟩ :=
              probe_step_facts env x p.calls [] recs fouts hprobe k c hc
            simp only [List.length_nil, Nat.zero_add] at h1
            have hmem : nodeOfRecord (mkRecord k c out) ∈ g.nodes := by
              rw [hg]
              exact nth_mem _ k _ (by rw [nth_map, h1]; rfl)
            have hseq : (nodeOfRecord (mkRecord k c out)).seq = k := rfl
            have hcond : (decide (¬ (nodeOfRecord (mkRecord k c out)).seq ∈ acc.dispatched) &&
                isReady g acc.done (nodeOfRecord (mkRecord k c out))) = true := by
              rw [Bool.and_eq_true]
              constructor
              · rw [decide_eq_true_eq, hseq]
                exact hknot
              · simp only [isReady, List.all_eq_true, hseq]
                intro q hq
                rw [mem_nodePreds] at hq
                obtain ⟨e, he, hec, hep⟩ := hq
                have hlt := hmono e he
                have hqk : q < k := by omega
                have hqd : q ∈ acc.dispatched := ihk q hqk (by omega)
                rw [hagree q hqd]
                exact (nth_isSome_iff fouts q).mpr (by omega)
            have : nodeOfRecord (mkRecord k c out) ∈ readyNodes g acc := by
              rw [readyNodes, List.mem_filter]
              exact ⟨hmem, hcond⟩
            rw [hready] at this
            exact absurd this (by simp)
      have hfind : assocFind g.resultSeq acc.done = some rLast := by
        have hres : g.resultSeq = recs.length - 1 := by rw [hg]
        rw [hres, hagree (recs.length - 1) (hall (recs.length - 1) (by omega)), hlast]
      simp only [parGo, hfail, hready, hfind]
    | cons nd nds =>
      rw [hready] at hexec
      obtain ⟨hw1, hw2, hw3⟩ := runWave_ok env x acc.done fouts (nd :: nds) hexec
      have hrsub : ((nd :: nds).map Node.seq).Sublist (g.nodes.map Node.seq) := by
        rw [← hready]
        exact List.Sublist.map Node.seq (List.filter_sublist g.nodes)
      have hrnodup : ((nd :: nds).map Node.seq).Nodup := by
        refine List.Nodup.sublist hrsub ?_
        rw [hseqs]
        exact List.nodup_range recs.length
      have hrbound : ∀ q ∈ (nd :: nds).map Node.seq, q < recs.length := by
        intro q hq
        have := hrsub.subset hq
        rw [hseqs] at this
        exact List.mem_range.mp this
      have hrnotd : ∀ q ∈ (nd :: nds).map Node.seq, ¬ q ∈ acc.dispatched := by
        intro q hq
        simp only [List.mem_map] at hq
        obtain ⟨b, hb, hbq⟩ := hq
        rw [← hready] at hb
        simp only [readyNodes, List.mem_filter, Bool.and_eq_true, decide_eq_true_eq] at hb
        rw [← hbq]
        exact hb.2.1
      have hinv' : SimInv fouts recs.length
          { done := acc.done ++ (runWave env x acc.done (nd :: nds)).1
            dispatched := acc.dispatched ++ (nd :: nds).map Node.seq
            failures := acc.failures ++ (runWave env x acc.done (nd :: nds)).2 } := by
        refine ⟨by simp [hfail, hw1], ?_, ?_, ?_, ?_⟩
        · exact List.Nodup.append hnd hrnodup (fun a ha hra => hrnotd a hra ha)
        · intro j hj
          rcases List.mem_append.mp hj with hj | hj
          · exact hbound j hj
          · exact hrbound j hj
        · intro j hj
          rw [assocFind_append]
          rcases List.mem_append.mp hj with hj | hj
          · have hagj := hagree j hj
            have hjn : j < recs.length := hbound j hj
            have : (nth fouts j).isSome := (nth_isSome_iff fouts j).mpr (by omega)
            cases hn : nth fouts j with
            | none => rw [hn] at this; exact absurd this (by simp)
            | some m => rw [hagj, hn]
          · have hold : assocFind j acc.done = none := by
              cases hfd : assocFind j acc.done with
              | none => rfl
              | some m =>
                have : j ∈ acc.dispatched := hcover j (by rw [hfd]; rfl)
                exact absurd this (hrnotd j hj)
            rw [hold]
            obtain ⟨out, hout, hfind⟩ := hw2 j hj
            rw [hfind, hout]
        · intro j hj
          rw [assocFind_append] at hj
          cases hfd : assocFind j acc.done with
          | some m =>
            rw [List.mem_append]
            exact Or.inl (hcover j (by rw [hfd]; rfl))
          | none =>
            rw [hfd] at hj
            rw [List.mem_append]
            right
            by_contra hnot
            rw [hw3 j hnot] at hj
            exact absurd hj (by simp)
      have hcnt' : recs.length + 1 ≤
          (acc.dispatched ++ (nd :: nds).map Node.seq).length + fuel := by
        simp only [List.length_append, List.length_map, List.length_cons]
        omega
      have hgoal := ih _ hinv' hcnt'
      rw [hfail] at hgoal
      simp only [parGo, hfail, hready]
      exact hgoal

/-- Under the parallel policy, running the graph compiled from a successful
probe also reproduces the direct, untraced call. -/
theorem parRun_eq_direct (env : OpEnv) (p : Pipeline) (x : ValMap)
    (recs : List InvocationRecord) (fouts : List ValMap) (g : CompiledGraph)
    (r : ValMap)
    (hprobe : probeSteps env x p.calls [] = .ok (recs, fouts))
    (hbuild : buildGraph recs = .ok g)
    (hdirect : runDirect env p x = .ok r) :
    (parRun env g x).1 = .ok r := by
  obtain ⟨hg, hne⟩ := buildGraph_ok recs g hbuild
  have hsteps : runSteps env x p.calls [] = .ok fouts := by
    rw [runSteps_eq_probe env x p.calls [], hprobe]
    rfl
  have hlast0 : fouts.getLast? = some r := by
    simp only [runDirect, hsteps] at hdirect
    cases hl : fouts.getLast? with
    | none => rw [hl] at hdirect; exact Except.noConfusion hdirect
    | some m =>
      rw [hl] at hdirect
      simp only [Except.ok.injEq] at hdirect
      rw [hdirect]
  obtain ⟨add, hadd, hlen, hrlen⟩ := probe_shape env x p.calls [] recs fouts hprobe
  have hflen : fouts.length = recs.length := by rw [hadd]; simp [hlen, hrlen]
  have hlast : nth fouts (recs.length - 1) = some r := by
    rw [← hflen, ← getLast?_eq_nth fouts]
    exact hlast0
  have hnlen : g.nodes.length = recs.length := by rw [hg]; simp
  have hinit : SimInv fouts recs.length { done := [], dispatched := [], failures := [] } := by
    refine ⟨rfl, List.nodup_nil, ?_, ?_, ?_⟩
    · intro j hj; exact absurd hj (by simp)
    · intro j hj; exact absurd hj (by simp)
    · intro j hj; exact absurd hj (by simp [assocFind])
  rw [parRun, hnlen]
  exact parGo_sim env p x recs fouts g r hprobe hbuild hlast (recs.length + 1)
    { done := [], dispatched := [], failures := [] } hinit (by simp)

/-- C2: for a graph whose node executions all succeed, sequential and
parallel scheduling produce equal result mappings, and the sequential
result is identical to a direct, untraced call of the original pipeline. -/
theorem scheduling_equivalence (env : OpEnv) (p : Pipeline) (x : ValMap)
    (recs : List InvocationRecord) (fouts : List ValMap) (g : CompiledGraph)
    (r : ValMap)
    (hprobe : probeSteps env x p.calls [] = .ok (recs, fouts))
    (hbuild : buildGraph recs = .ok g)
    (hdirect : runDirect env p x = .ok r) :
    seqRun env g x = (parRun env g x).1 ∧
    seqRun env g x = .ok r ∧
    seqRun env g x = runDirect env p x := by
  have hseq := seqRun_eq_direct env p x recs fouts g r hprobe hbuild hdirect
  have hpar := parRun_eq_direct env p x recs fouts g r hprobe hbuild hdirect
  exact ⟨by rw [hseq, hpar], hseq, by rw [hseq, hdirect]⟩

/-- Scheduling a graph compiled from a successful probe returns the direct
result under either policy. -/
theorem schedule_ok (env : OpEnv) (p : Pipeline) (x : ValMap)
    (recs : List InvocationRecord) (fouts : List ValMap) (g : CompiledGraph)
    (r : ValMap) (opts : ExecutionOptions)
    (hprobe : probeSteps env x p.calls [] = .ok (recs, fouts))
    (hbuild : buildGraph recs = .ok g)
    (hdirect : runDirect env p x = .ok r) :
    schedule env g x opts = .ok r := by
  rw [schedule]
  by_cases hs : opts.scheduler = "parallel"
  · rw [if_pos hs]
    exact parRun_eq_direct env p x recs fouts g r hprobe hbuild hdirect
  · rw [if_neg hs]
    exact seqRun_eq_direct env p x recs fouts g r hprobe hbuild hdirect

/-- A cache hit leaves the wrapped operator's state untouched. -/
theorem jit_warm_state (env : OpEnv) (pipeId : Nat) (p : Pipeline)
    (opts : ExecutionOptions) (st : JitState) (x : ValMap) (g : CompiledGraph)
    (hhit : cacheFind (sigOf pipeId x) st.cache = some g) :
    (jit_wrap_call env pipeId p opts st x).2 = st := by
  simp [jit_wrap_call, hhit]

/-- A cache hit serves the cached graph to the scheduler. -/
theorem jit_warm_result (env : OpEnv) (pipeId : Nat) (p : Pipeline)
    (opts : ExecutionOptions) (st : JitState) (x : ValMap) (g : CompiledGraph)
    (hhit : cacheFind (sigOf pipeId x) st.cache = some g) :
    (jit_wrap_call env pipeId p opts st x).1 = schedule env g x opts := by
  simp [jit_wrap_call, hhit]

/-- C1: the JIT wrapper is transparent — with a direct call returning `r`,
the wrapped call returns `r` on the cold path (probe, build, schedule) and
again on the warm path (cache hit), for any scheduling policy. -/
theorem tracing_transparency (env : OpEnv) (pipeId : Nat) (p : Pipeline)
    (opts : ExecutionOptions) (x : ValMap) (r : ValMap)
    (hne : p.calls ≠ [])
    (hdirect : runDirect env p x = .ok r) :
    (jit_wrap_call env pipeId p opts jitStateInit x).1 = .ok r ∧
    (jit_wrap_call env pipeId p opts
      (jit_wrap_call env pipeId p opts jitStateInit x).2 x).1 = .ok r := by
  cases hp : probeSteps env x p.calls [] with
  | error e =>
    have hsteps : runSteps env x p.calls [] = .error e := by
      rw [runSteps_eq_probe env x p.calls [], hp]
      rfl
    simp only [runDirect, hsteps] at hdirect
    exact Except.noConfusion hdirect
  | ok pr =>
    obtain ⟨recs, fouts⟩ := pr
    cases hrecs : recs with
    | nil =>
      obtain ⟨add, hadd, hlen, hrlen⟩ := probe_shape env x p.calls [] recs fouts hp
      rw [hrecs] at hrlen
      simp only [List.length_nil] at hrlen
      exact absurd (List.length_eq_zero.mp hrlen.symm) hne
    | cons rr rs =>
      subst hrecs
      cases hb : buildGraph (rr :: rs) with
      | error e => simp [buildGraph] at hb
      | ok g =>
        have hsched := schedule_ok env p x (rr :: rs) fouts g r opts hp hb hdirect
        have hcold : jit_wrap_call env pipeId p opts jitStateInit x =
            (schedule env g x opts,
             { cache := [(sigOf pipeId x, g)], buildCount := 1 }) := by
          simp [jit_wrap_call, jitStateInit, cacheFind, hp, hb]
        have hhit : cacheFind (sigOf pipeId x)
            ([(sigOf pipeId x, g)] : List (Sig × CompiledGraph)) = some g := by
          simp [cacheFind]
        constructor
        · rw [hcold]
          exact hsched
        · rw [hcold]
          rw [jit_warm_result env pipeId p opts
            { cache := [(sigOf pipeId x, g)], buildCount := 1 } x g hhit]
          exact hsched

/-- Warm same-signature calls leave the wrapped operator's state unchanged. -/
theorem jitCallSeq_warm (env : OpEnv) (pipeId : Nat) (p : Pipeline)
    (opts : ExecutionOptions) (sig0 : Sig) (g0 : CompiledGraph) :
    ∀ (ys : List ValMap) (st : JitState),
    cacheFind sig0 st.cache = some g0 →
    (∀ y ∈ ys, sigOf pipeId y = sig0) →
    jitCallSeq env pipeId p opts ys st = st := by
  intro ys
  induction ys with
  | nil => intro st _ _; rfl
  | cons y ys ih =>
    intro st hhit hsig
    have hy : sigOf pipeId y = sig0 := hsig y (List.mem_cons_self y ys)
    have hhity : cacheFind (sigOf pipeId y) st.cache = some g0 := by rw [hy]; exact hhit
    have hstate := jit_warm_state env pipeId p opts st y g0 hhity
    rw [jitCallSeq, hstate]
    exact ih st hhit (fun z hz => hsig z (List.mem_cons_of_mem y hz))

/-- C3: N>1 calls with inputs of the same signature build the graph exactly
once — the build counter reads 1 — with every later call served from the
compilation cache. -/
theorem idempotent_compilation (env : OpEnv) (pipeId : Nat) (p : Pipeline)
    (opts : ExecutionOptions) (x0 : ValMap) (xs : List ValMap) (r : ValMap)
    (hne : p.calls ≠ [])
    (hdirect : runDirect env p x0 = .ok r)
    (hsig : ∀ y ∈ xs, sigOf pipeId y = sigOf pipeId x0) :
    (jitCallSeq env pipeId p opts (x0 :: xs) jitStateInit).buildCount = 1 := by
  cases hp : probeSteps env x0 p.calls [] with
  | error e =>
    have hsteps : runSteps env x0 p.calls [] = .error e := by
      rw [runSteps_eq_probe env x0 p.calls [], hp]
      rfl
    simp only [runDirect, hsteps] at hdirect
    exact Except.noConfusion hdirect
  | ok pr =>
    obtain ⟨recs, fouts⟩ := pr
    cases hrecs : recs with
    | nil =>
      obtain ⟨add, hadd, hlen, hrlen⟩ := probe_shape env x0 p.calls [] recs fouts hp
      rw [hrecs] at hrlen
      simp only [List.length_nil] at hrlen
      exact absurd (List.length_eq_zero.mp hrlen.symm) hne
    | cons rr rs =>
      subst hrecs
      cases hb : buildGraph (rr :: rs) with
      | error e => simp [buildGraph] at hb
      | ok g =>
        have hcold : jit_wrap_call env pipeId p opts jitStateInit x0 =
            (schedule env g x0 opts,
             { cache := [(sigOf pipeId x0, g)], buildCount := 1 }) := by
          simp [jit_wrap_call, jitStateInit, cacheFind, hp, hb]
        have hhit : cacheFind (sigOf pipeId x0)
            ([(sigOf pipeId x0, g)] : List (Sig × CompiledGraph)) = some g := by
          simp [cacheFind]
        rw [jitCallSeq, hcold]
        rw [jitCallSeq_warm env pipeId p opts (sigOf pipeId x0) g xs
          { cache := [(sigOf pipeId x0, g)], buildCount := 1 } hhit hsig]

theorem mem_insertFail (f q : Nat × Nat) : ∀ (l : List (Nat × Nat)),
    q ∈ insertFail f l ↔ q = f ∨ q ∈ l := by
  intro l
  induction l with
  | nil => simp [insertFail]
  | cons p ps ih =>
    rw [insertFail]
    by_cases hle : f.1 ≤ p.1
    · rw [if_pos hle]
      simp [List.mem_cons]
    · rw [if_neg hle]
      simp only [List.mem_cons, ih]
      tauto

theorem mem_sortFails (q : Nat × Nat) : ∀ (l : List (Nat × Nat)),
    q ∈ sortFails l ↔ q ∈ l := by
  intro l
  induction l with
  | nil => simp [sortFails]
  | cons f fs ih => simp [sortFails, mem_insertFail, ih]

theorem insertFail_sorted (f : Nat × Nat) : ∀ (l : List (Nat × Nat)),
    List.Sorted (fun a b : Nat × Nat => a.1 ≤ b.1) l →
    List.Sorted (fun a b : Nat × Nat => a.1 ≤ b.1) (insertFail f l) := by
  intro l
  induction l with
  | nil => intro _; simp [insertFail]
  | cons p ps ih =>
    intro hs
    rw [List.sorted_cons] at hs
    rw [insertFail]
    by_cases hle : f.1 ≤ p.1
    · rw [if_pos hle]
      rw [List.sorted_cons]
      constructor
      · intro b hb
        rcases List.mem_cons.mp hb with rfl | hb
        · exact hle
        · exact le_trans hle (hs.1 b hb)
      · rw [List.sorted_cons]
        exact hs
    · rw [if_neg hle]
      rw [List.sorted_cons]
      constructor
      · intro b hb
        rcases (mem_insertFail f b ps).mp hb with rfl | hb
        · omega
        · exact hs.1 b hb
      · exact ih hs.2

theorem sortFails_sorted : ∀ (l : List (Nat × Nat)),
    List.Sorted (fun a b : Nat × Nat => a.1 ≤ b.1) (sortFails l) := by
  intro l
  induction l with
  | nil => simp [sortFails]
  | cons f fs ih => exact insertFail_sorted f (sortFails fs) ih

theorem insertFail_length (f : Nat × Nat) : ∀ (l : List (Nat × Nat)),
    (insertFail f l).length = l.length + 1 := by
  intro l
  induction l with
  | nil => rfl
  | cons p ps ih =>
    rw [insertFail]
    by_cases hle : f.1 ≤ p.1
    · rw [if_pos hle]; rfl
    · rw [if_neg hle]
      simp [ih]

theorem sortFails_length : ∀ (l : List (Nat × Nat)),
    (sortFails l).length = l.length := by
  intro l
  induction l with
  | nil => rfl
  | cons f fs ih =>
    rw [sortFails, insertFail_length]
    simp [ih]

/-- Stored wave outputs belong to nodes of the wave. -/
theorem runWave_keys_sub (env : OpEnv) (x : ValMap) (done : List (Nat × ValMap)) :
    ∀ (l : List Node) (j : Nat),
    (assocFind j (runWave env x done l).1).isSome → j ∈ l.map Node.seq := by
  intro l
  induction l with
  | nil => intro j hj; simp [runWave, assocFind] at hj
  | cons nd nds ih =>
    intro j hj
    cases hres : resolveNodeInputs x done nd.inputs with
    | none =>
      simp only [runWave, hres] at hj
      exact List.mem_cons_of_mem _ (ih j hj)
    | some args =>
      cases henv : env nd.opId args with
      | ok out =>
        simp only [runWave, hres, henv] at hj
        by_cases hjs : j = nd.seq
        · rw [hjs, List.map_cons]
          exact List.mem_cons_self _ _
        · simp only [assocFind, if_neg hjs] at hj
          exact List.mem_cons_of_mem _ (ih j hj)
      | error u =>
        simp only [runWave, hres, henv] at hj
        exact List.mem_cons_of_mem _ (ih j hj)

/-- Wave failures belong to nodes of the wave. -/
theorem runWave_fail_mem (env : OpEnv) (x : ValMap) (done : List (Nat × ValMap)) :
    ∀ (l : List Node) (f : Nat × Nat),
    f ∈ (runWave env x done l).2 → f.1 ∈ l.map Node.seq := by
  intro l
  induction l with
  | nil => intro f hf; simp [runWave] at hf
  | cons nd nds ih =>
    intro f hf
    cases hres : resolveNodeInputs x done nd.inputs with
    | none =>
      simp only [runWave, hres] at hf
      rcases List.mem_cons.mp hf with rfl | hf
      · rw [List.map_cons]
        exact List.mem_cons_self _ _
      · exact List.mem_cons_of_mem _ (ih f hf)
    | some args =>
      cases henv : env nd.opId args with
      | ok out =>
        simp only [runWave, hres, henv] at hf
        exact List.mem_cons_of_mem _ (ih f hf)
      | error u =>
        simp only [runWave, hres, henv] at hf
        rcases List.mem_cons.mp hf with rfl | hf
        · rw [List.map_cons]
          exact List.mem_cons_self _ _
        · exact List.mem_cons_of_mem _ (ih f hf)

/-- A node that fails in a wave stores no output in that wave. -/
theorem runWave_fail_not_done (env : OpEnv) (x : ValMap) (done : List (Nat × ValMap)) :
    ∀ (l : List Node), (l.map Node.seq).Nodup →
    ∀ f ∈ (runWave env x done l).2, assocFind f.1 (runWave env x done l).1 = none := by
  intro l
  induction l with
  | nil => intro _ f hf; simp [runWave] at hf
  | cons nd nds ih =>
    intro hnodup f hf
    simp only [List.map_cons, List.nodup_cons] at hnodup
    obtain ⟨hnmem, hnodup'⟩ := hnodup
    cases hres : resolveNodeInputs x done nd.inputs with
    | none =>
      simp only [runWave, hres] at hf ⊢
      rcases List.mem_cons.mp hf with rfl | hf
      · cases hfind : assocFind nd.seq (runWave env x done nds).1 with
        | none => rfl
        | some m =>
          have := runWave_keys_sub env x done nds nd.seq (by rw [hfind]; rfl)
          exact absurd this hnmem
      · exact ih hnodup' f hf
    | some args =>
      cases henv : env nd.opId args with
      | ok out =>
        simp only [runWave, hres, henv] at hf ⊢
        have hf1 : f.1 ∈ nds.map Node.seq := runWave_fail_mem env x done nds f hf
        have hne : f.1 ≠ nd.seq := fun h => hnmem (h ▸ hf1)
        simp only [assocFind, if_neg hne]
        exact ih hnodup' f hf
      | error u =>
        simp only [runWave, hres, henv] at hf ⊢
        rcases List.mem_cons.mp hf with rfl | hf
        · cases hfind : assocFind nd.seq (runWave env x done nds).1 with
          | none => rfl
          | some m =>
            have := runWave_keys_sub env x done nds nd.seq (by rw [hfind]; rfl)
            exact absurd this hnmem
        · exact ih hnodup' f hf

/-- Dispatching one wave of ready nodes preserves the safety invariant. -/
theorem wave_safe (env : OpEnv) (g : CompiledGraph) (x : ValMap) (acc : ParAcc)
    (hnodesnd : (g.nodes.map Node.seq).Nodup)
    (hsafe : SafeAcc g acc) (nd : Node) (nds : List Node)
    (hready : readyNodes g acc = nd :: nds) :
    SafeAcc g { done := acc.done ++ (runWave env x acc.done (nd :: nds)).1
                dispatched := acc.dispatched ++ (nd :: nds).map Node.seq
                failures := acc.failures ++ (runWave env x acc.done (nd :: nds)).2 } := by
  obtain ⟨hnd, hcover, hpreds, hfails⟩ := hsafe
  have hrsub : ((nd :: nds).map Node.seq).Sublist (g.nodes.map Node.seq) := by
    rw [← hready]
    exact List.Sublist.map Node.seq (List.filter_sublist g.nodes)
  have hrnodup : ((nd :: nds).map Node.seq).Nodup := List.Nodup.sublist hrsub hnodesnd
  have hrnotd : ∀ q ∈ (nd :: nds).map Node.seq, ¬ q ∈ acc.dispatched := by
    intro q hq
    simp only [List.mem_map] at hq
    obtain ⟨b, hb, hbq⟩ := hq
    rw [← hready] at hb
    simp only [readyNodes, List.mem_filter, Bool.and_eq_true, decide_eq_true_eq] at hb
    rw [← hbq]
    exact hb.2.1
  have hrready : ∀ b ∈ (nd :: nds), ∀ q ∈ nodePreds g b.seq,
      (assocFind q acc.done).isSome := by
    intro b hb q hq
    rw [← hready] at hb
    simp only [readyNodes, List.mem_filter, Bool.and_eq_true, decide_eq_true_eq] at hb
    have := hb.2.2
    simp only [isReady, List.all_eq_true] at this
    exact this q hq
  refine ⟨?_, ?_, ?_, ?_⟩
  · exact List.Nodup.append hnd hrnodup (fun a ha hra => hrnotd a hra ha)
  · intro j hj
    rw [assocFind_append] at hj
    cases hfd : assocFind j acc.done with
    | some m =>
      rw [List.mem_append]
      exact Or.inl (hcover j (by rw [hfd]; rfl))
    | none =>
      rw [hfd] at hj
      rw [List.mem_append]
      exact Or.inr (runWave_keys_sub env x acc.done (nd :: nds) j hj)
  · intro b hb q hq
    rw [assocFind_append]
    rcases List.mem_append.mp hb with hb | hb
    · have := hpreds b hb q hq
      cases hfd : assocFind q acc.done with
      | some m => rfl
      | none => rw [hfd] at this; exact absurd this (by simp)
    · simp only [List.mem_map] at hb
      obtain ⟨bn, hbn, hbq⟩ := hb
      have := hrready bn hbn q (by rw [hbq]; exact hq)
      cases hfd : assocFind q acc.done with
      | some m => rfl
      | none => rw [hfd] at this; exact absurd this (by simp)
  · intro f hf
    rcases List.mem_append.mp hf with hf | hf
    · obtain ⟨hfd, hfn⟩ := hfails f hf
      refine ⟨List.mem_append.mpr (Or.inl hfd), ?_⟩
      rw [assocFind_append, hfn]
      cases hw : assocFind f.1 (runWave env x acc.done (nd :: nds)).1 with
      | none => rfl
      | some m =>
        have := runWave_keys_sub env x acc.done (nd :: nds) f.1 (by rw [hw]; rfl)
        exact absurd hfd (hrnotd f.1 this)
    · have hfr : f.1 ∈ (nd :: nds).map Node.seq :=
        runWave_fail_mem env x acc.done (nd :: nds) f hf
      refine ⟨List.mem_append.mpr (Or.inr hfr), ?_⟩
      have hold : assocFind f.1 acc.done = none := by
        cases hfd : assocFind f.1 acc.done with
        | none => rfl
        | some m =>
          have := hcover f.1 (by rw [hfd]; rfl)
          exact absurd this (hrnotd f.1 hfr)
      rw [assocFind_append, hold]
      exact runWave_fail_not_done env x acc.done (nd :: nds) hrnodup f hf

/-- The parallel dispatch loop preserves the safety invariant. -/
theorem parGo_safe (env : OpEnv) (g : CompiledGraph) (x : ValMap)
    (hnodesnd : (g.nodes.map Node.seq).Nodup) :
    ∀ (fuel : Nat) (acc : ParAcc), SafeAcc g acc →
    SafeAcc g (parGo env g x fuel acc).2 := by
  intro fuel
  induction fuel with
  | zero => intro acc hsafe; exact hsafe
  | succ fuel ih =>
    intro acc hsafe
    cases hf : acc.failures with
    | cons q qs => simp only [parGo, hf]; exact hsafe
    | nil =>
      cases hready : readyNodes g acc with
      | nil =>
        cases hfind : assocFind g.resultSeq acc.done with
        | some m => simp only [parGo, hf, hready, hfind]; exact hsafe
        | none => simp only [parGo, hf, hready, hfind]; exact hsafe
      | cons nd nds =>
        simp only [parGo, hf, hready]
        have hsafe' := wave_safe env g x acc hnodesnd hsafe nd nds hready
        rw [hf] at hsafe'
        exact ih _ hsafe'

/-- When the parallel loop returns an aggregate, it is the sorted list of
the (non-empty) failures of its final dispatch state. -/
theorem parGo_agg (env : OpEnv) (g : CompiledGraph) (x : ValMap) :
    ∀ (fuel : Nat) (acc : ParAcc) (fs : List (Nat × Nat)),
    (parGo env g x fuel acc).1 = .error (.aggregated fs) →
    fs = sortFails (parGo env g x fuel acc).2.failures ∧
    (parGo env g x fuel acc).2.failures ≠ [] := by
  intro fuel
  induction fuel with
  | zero =>
    intro acc fs hres
    simp only [parGo] at hres
    exact absurd (Except.error.inj hres) (by simp)
  | succ fuel ih =>
    intro acc fs hres
    cases hf : acc.failures with
    | cons q qs =>
      simp only [parGo, hf] at hres ⊢
      have := Except.error.inj hres
      have hfs : fs = sortFails (q :: qs) := (EmberError.aggregated.inj this).symm
      exact ⟨hfs, by simp⟩
    | nil =>
      cases hready : readyNodes g acc with
      | nil =>
        cases hfind : assocFind g.resultSeq acc.done with
        | some m =>
          simp only [parGo, hf, hready, hfind] at hres
          exact Except.noConfusion hres
        | none =>
          simp only [parGo, hf, hready, hfind] at hres
          exact absurd (Except.error.inj hres) (by simp)
      | cons nd nds =>
        simp only [parGo, hf, hready] at hres ⊢
        exact ih _ fs hres

/-- C5: when the parallel scheduler returns an aggregate, the aggregate is
non-empty and headed by the first failure by sequence index, every reported
failure was a dispatched node, and no node depending (directly or
transitively) on a failed node was ever dispatched. -/
theorem parallel_fail_fast (env : OpEnv) (g : CompiledGraph) (x : ValMap)
    (fs : List (Nat × Nat))
    (hnodesnd : (g.nodes.map Node.seq).Nodup)
    (hres : (parRun env g x).1 = .error (.aggregated fs)) :
    (∃ f0 fr, fs = f0 :: fr ∧ ∀ q ∈ fs, f0.1 ≤ q.1) ∧
    (∀ q ∈ fs, q.1 ∈ (parRun env g x).2.dispatched) ∧
    (∀ a b, a ∈ fs.map Prod.fst → Relation.TransGen (edgeStep g) a b →
      ¬ b ∈ (parRun env g x).2.dispatched) := by
  have hinit : SafeAcc g { done := [], dispatched := [], failures := [] } := by
    refine ⟨List.nodup_nil, ?_, ?_, ?_⟩
    · intro j hj; simp [assocFind] at hj
    · intro b hb; simp at hb
    · intro f hf; simp at hf
  rw [parRun] at hres
  obtain ⟨hfs, hfne⟩ := parGo_agg env g x (g.nodes.length + 1)
    { done := [], dispatched := [], failures := [] } fs hres
  obtain ⟨hnd, hcover, hpreds, hfails⟩ := parGo_safe env g x hnodesnd (g.nodes.length + 1)
    { done := [], dispatched := [], failures := [] } hinit
  rw [parRun]
  refine ⟨?_, ?_, ?_⟩
  · cases hcase : fs with
    | nil =>
      rw [hcase] at hfs
      have hlen := sortFails_length (parGo env g x (g.nodes.length + 1)
        { done := [], dispatched := [], failures := [] }).2.failures
      rw [← hfs] at hlen
      simp only [List.length_nil] at hlen
      exact absurd (List.length_eq_zero.mp hlen.symm) hfne
    | cons f0 fr =>
      refine ⟨f0, fr, rfl, ?_⟩
      have hsorted : List.Sorted (fun a b : Nat × Nat => a.1 ≤ b.1) (f0 :: fr) := by
        rw [← hcase, hfs]
        exact sortFails_sorted _
      intro q hq
      rcases List.mem_cons.mp hq with rfl | hq
      · exact le_refl q.1
      · exact List.rel_of_sorted_cons hsorted q hq
  · intro q hq
    rw [hfs] at hq
    exact (hfails q ((mem_sortFails q _).mp hq)).1
  · intro a b ha htrans
    simp only [List.mem_map] at ha
    obtain ⟨f, hfmem, hfa⟩ := ha
    rw [hfs] at hfmem
    have hffail := (mem_sortFails f _).mp hfmem
    obtain ⟨hfdisp, hfnone⟩ := hfails f hffail
    rw [← hfa] at htrans
    clear hfa
    induction htrans with
    | single hab =>
      obtain ⟨e, he, hep, hec⟩ := hab
      intro hb
      rw [← hec] at hb
      have hpred : f.1 ∈ nodePreds g e.consumer := by
        rw [mem_nodePreds]
        exact ⟨e, he, rfl, hep⟩
      have := hpreds e.consumer hb f.1 hpred
      rw [hfnone] at this
      exact absurd this (by simp)
    | tail hab hbc ih =>
      obtain ⟨e, he, hep, hec⟩ := hbc
      intro hc
      have hbnotd := ih
      have hbnone : assocFind e.producer (parGo env g x (g.nodes.length + 1)
          { done := [], dispatched := [], failures := [] }).2.done = none := by
        cases hfd : assocFind e.producer _ with
        | none => rfl
        | some m =>
          have := hcover e.producer (by rw [hfd]; rfl)
          rw [hep] at this
          exact absurd this hbnotd
      have hpred : e.producer ∈ nodePreds g e.consumer := by
        rw [mem_nodePreds]
        exact ⟨e, he, rfl, rfl⟩
      have := hpreds e.consumer (by rw [hec]; exact hc) e.producer hpred
      rw [hbnone] at this
      exact absurd this (by simp)

/-- C6: beginning a probe while another probe is active raises
`TracingStateError` immediately and leaves the recorder exactly as it was —
no partial trace is retained from the rejected attempt. -/
theorem nested_probe_rejected (s : RecorderState) (t : List InvocationRecord)
    (h : s.active = some t) :
    begin_probe s = (s, some EmberError.tracingState) := by
  simp [begin_probe, h]

/-- C7: entering an options scope with a valid scheduler makes the given
options the effective top of stack for the body, and exiting the scope —
whatever the body returns, success or failure — restores the previous
stack exactly. -/
theorem scoped_options_restore {α : Type} (opts : ExecutionOptions)
    (stk : List ExecutionOptions) (body : List ExecutionOptions → Except EmberError α)
    (h : validScheduler opts.scheduler = true) :
    with_execution_options opts stk body = (body (opts :: stk), stk) ∧
    currentOptions (opts :: stk) = opts := by
  constructor
  · simp [with_execution_options, h]
  · rfl

/-- C8: a scheduler name other than "sequential" or "parallel" is rejected
with a `ConfigurationError` at scope entry — the body never runs, the
stack is unchanged, and the invalid value is never replaced by a default. -/
theorem invalid_scheduler_rejected {α : Type} (opts : ExecutionOptions)
    (stk : List ExecutionOptions) (body : List ExecutionOptions → Except EmberError α)
    (h : validScheduler opts.scheduler = false) :
    with_execution_options opts stk body = (.error .configuration, stk) := by
  simp [with_execution_options, h]

/-- C9: `jit_wrap(pipeline)` on `{value: 5}` for
`pipeline(v) = double(double(v))` yields `{result: 20}` on the cold path
and again on the warm path, and the compiled graph cached by the first call
has exactly 2 nodes and 1 edge. -/
theorem concrete_double_pipeline :
    (jit_wrap_call demoEnv 7 doublePipeline defaultOptions jitStateInit demoInput).1 =
      .ok [("result", 20)] ∧
    (jit_wrap_call demoEnv 7 doublePipeline defaultOptions
      (jit_wrap_call demoEnv 7 doublePipeline defaultOptions jitStateInit demoInput).2
      demoInput).1 = .ok [("result", 20)] ∧
    ((jit_wrap_call demoEnv 7 doublePipeline defaultOptions jitStateInit demoInput).2.cache.map
      (fun pr => (pr.2.nodes.length, pr.2.edges.length))) = [(2, 1)] :=
  ⟨rfl, rfl, rfl⟩

/-- C10: `ConfigManager.get` returns the attribute when both section and
key exist and the supplied default otherwise, and it always returns rather
than raising — also when the section or key is absent or the section
object's attribute access itself raises. -/
theorem config_get_total (cfg : EmberConfigModel) (s k : String) (d : ConfigValue) :
    configGet cfg s k d =
      .ok (match cfg.sections s with
           | .found so =>
             match so.keys k with
             | .found v => v
             | .absent => d
             | .raises _ => d
           | .absent => d
           | .raises _ => d) := by
  cases hs : cfg.sections s with
  | found so =>
    cases hk : so.keys k with
    | found v => simp [configGet, configGetBody, hasattrM, getattrM, hs, hk]
    | absent => simp [configGet, configGetBody, hasattrM, getattrM, hs, hk]
    | raises e => cases e <;> simp [configGet, configGetBody, hasattrM, getattrM, hs, hk]
  | absent => simp [configGet, configGetBody, hasattrM, getattrM, hs]
  | raises e => cases e <;> simp [configGet, configGetBody, hasattrM, getattrM, hs]

/-- Witness for C1 at the concrete doubling pipeline under the parallel
policy. -/
theorem tracing_transparency_witness :
    (jit_wrap_call demoEnv 3 doublePipeline parOpts jitStateInit demoInput).1 =
      .ok [("result", 20)] ∧
    (jit_wrap_call demoEnv 3 doublePipeline parOpts
      (jit_wrap_call demoEnv 3 doublePipeline parOpts jitStateInit demoInput).2
      demoInput).1 = .ok [("result", 20)] :=
  tracing_transparency demoEnv 3 doublePipeline parOpts demoInput [("result", 20)]
    (by decide) (by rfl)

/-- Witness for C2 at the concrete doubling pipeline's compiled graph. -/
theorem scheduling_equivalence_witness :
    seqRun demoEnv demoGraph demoInput = (parRun demoEnv demoGraph demoInput).1 ∧
    seqRun demoEnv demoGraph demoInput = .ok [("result", 20)] ∧
    seqRun demoEnv demoGraph demoInput = runDirect demoEnv doublePipeline demoInput :=
  scheduling_equivalence demoEnv doublePipeline demoInput demoRecs demoOuts demoGraph
    [("result", 20)] (by rfl) (by rfl) (by rfl)

/-- Witness for C3: three calls with inputs of one signature build once. -/
theorem idempotent_compilation_witness :
    (jitCallSeq demoEnv 5 doublePipeline defaultOptions [demoInput, demoInput2, demoInput]
      jitStateInit).buildCount = 1 :=
  idempotent_compilation demoEnv 5 doublePipeline defaultOptions demoInput
    [demoInput2, demoInput] [("result", 20)] (by decide) (by rfl) (by decide)

/-- Witness for C4 at the concrete doubling pipeline's compiled graph. -/
theorem topological_soundness_witness :
    (∀ e ∈ demoGraph.edges, e.producer < e.consumer) ∧
    (∀ a, ¬ Relation.TransGen (edgeStep demoGraph) a a) :=
  topological_soundness demoEnv doublePipeline demoInput demoRecs demoOuts demoGraph
    (by rfl) (by rfl)

/-- Witness for C5: in the concrete fail-fast scenario node 0 fails, the
independent node 1 completes, and the dependent node 2 is never
dispatched. -/
theorem parallel_fail_fast_witness :
    ¬ 2 ∈ (parRun envFail gFail failInput).2.dispatched := by
  have h := parallel_fail_fast envFail gFail failInput [(0, 0)] (by decide) (by rfl)
  exact h.2.2 0 2 (by decide) (Relation.TransGen.single
    ⟨{ producer := 0, consumer := 2, outName := "out", inName := "x" }, by decide, rfl, rfl⟩)

/-- Witness for C6 at a recorder with an active probe. -/
theorem nested_probe_rejected_witness :
    begin_probe demoRecorder = (demoRecorder, some EmberError.tracingState) :=
  nested_probe_rejected demoRecorder [mkRecord 0 { opId := 1, argSrcs := [] } []] (by rfl)

/-- Witness for C7: exiting an inner parallel scope nested in an outer
sequential scope restores the effective policy to sequential. -/
theorem scoped_options_restore_witness :
    with_execution_options parOpts [seqOpts] demoBody =
      (demoBody (parOpts :: [seqOpts]), [seqOpts]) ∧
    currentOptions (parOpts :: [seqOpts]) = parOpts ∧
    currentOptions (with_execution_options parOpts [seqOpts] demoBody).2 = seqOpts := by
  have h := scoped_options_restore parOpts [seqOpts] demoBody (by decide)
  refine ⟨h.1, h.2, ?_⟩
  rw [h.1]
  rfl

/-- Witness for C8 at the scheduler name "foo". -/
theorem invalid_scheduler_rejected_witness :
    with_execution_options fooOpts [seqOpts] demoBody = (.error .configuration, [seqOpts]) :=
  invalid_scheduler_rejected fooOpts [seqOpts] demoBody (by decide)
